import Mathlib

/-!
Verification of the tsqlapp-skills repository's core logic: the TSQL.APP URL
decoder and query deriver of `src/tsqlapp-navigator/scripts/parse_url.py`
(`parse_tsqlapp_url`, `generate_queries`), and the procedure-catalog lookups of
`src/tsqlapp-developer/scripts/query_procedures.py` (`find_procedure`,
`search_procedures`).

Strings are embedded as `List Char`.  The Python standard-library routines the
source calls — `urllib.parse.urlparse`, `parse_qs`, `unquote`, `str.split`,
`str.strip`, `str.endswith`, `int(...)`, `str.lower`, substring `in`,
`sorted`, `set` — are modelled below, faithful to CPython's behaviour on the
ASCII subset (Unicode digit/whitespace classes beyond ASCII and multi-byte
UTF-8 percent-escapes are outside the modelled subset and outside every claim).
Fallible code (`int(...)` raising `ValueError`) is embedded with `Except`,
the error carrying the offending token, as CPython's `ValueError` message does.
-/

/-- Abbreviation: character list of a string literal. -/
def lc (s : String) : List Char := s.data

/-! ## Python primitives: whitespace strip, `int(...)`, percent-decoding -/

/-- ASCII whitespace, as recognised by `str.strip()` and `int()` (ASCII
subset of Python's Unicode whitespace class). -/
def isPyWS (c : Char) : Bool :=
  c = ' ' || c = '\t' || c = '\n' || c = '\r' || c = Char.ofNat 11 || c = Char.ofNat 12

/-- Python `str.strip()` (ASCII whitespace). -/
def stripWS (s : List Char) : List Char :=
  ((s.dropWhile isPyWS).reverse.dropWhile isPyWS).reverse

/-- Numeric value of an ASCII digit character. -/
def digitVal (c : Char) : Nat := c.toNat - 48

/-- Decimal value of a digit string (most significant first). -/
def digitsVal (l : List Char) : Nat :=
  l.foldl (fun a c => a * 10 + digitVal c) 0

/-- Digit-and-underscore tail of Python's base-10 integer grammar:
`digit (("_")? digit)*` continued after an initial digit whose accumulated
value is `acc`.  A `_` must be followed by a digit; a doubled or trailing
`_` rejects. -/
def digitsCore : Nat → List Char → Option Nat
  | acc, [] => some acc
  | acc, c :: rest =>
    if c = '_' then
      match rest with
      | c2 :: rest2 => if c2.isDigit then digitsCore (acc * 10 + digitVal c2) rest2 else none
      | [] => none
    else if c.isDigit then digitsCore (acc * 10 + digitVal c) rest else none

/-- Unsigned part of Python `int(str)`: a non-empty digit string with
optional single underscores between digits. -/
def parseDigits : List Char → Option Nat
  | [] => none
  | c :: rest => if c.isDigit then digitsCore (digitVal c) rest else none

/-- Sign-and-digits part of Python `int(str)`, applied to the stripped
string: at most one leading sign, then `parseDigits`. -/
def pyIntCore : List Char → Option Int
  | [] => none
  | c :: rest =>
    if c = '+' then (parseDigits rest).map (fun n => (n : Int))
    else if c = '-' then (parseDigits rest).map (fun n => -(n : Int))
    else (parseDigits (c :: rest)).map (fun n => (n : Int))

/-- Python `int(str)` for base 10: optional surrounding whitespace, optional
single sign, then digits with optional underscore separators.  `none` models
`ValueError`. -/
def pyInt (s : List Char) : Option Int :=
  pyIntCore (stripWS s)

/-- Value of an ASCII hex digit, `none` otherwise. -/
def hexVal? (c : Char) : Option Nat :=
  if '0' ≤ c ∧ c ≤ '9' then some (c.toNat - 48)
  else if 'a' ≤ c ∧ c ≤ 'f' then some (c.toNat - 87)
  else if 'A' ≤ c ∧ c ≤ 'F' then some (c.toNat - 55)
  else none

/-- Python `urllib.parse.unquote`: decode `%XX` percent-escapes, leaving
invalid escapes (no two hex digits after the `%`) untouched.  Single-byte
escapes are modelled exactly; multi-byte UTF-8 sequences (escaped bytes
`≥ 0x80`) are outside the modelled subset (each byte becomes its own code
point rather than being UTF-8-combined). -/
def unquote : List Char → List Char
  | [] => []
  | '%' :: h1 :: h2 :: rest2 =>
    match hexVal? h1, hexVal? h2 with
    | some a, some b => Char.ofNat (16 * a + b) :: unquote rest2
    | _, _ => '%' :: unquote (h1 :: h2 :: rest2)
  | '%' :: rest => '%' :: unquote rest
  | c :: rest => c :: unquote rest

/-- Python `unquote_plus` as used inside `parse_qsl`:
`unquote(s.replace('+', ' '))`. -/
def unquotePlus (s : List Char) : List Char :=
  unquote (s.map (fun c => if c = '+' then ' ' else c))

/-! ## List-of-characters splitting (Python `str.split` and friends) -/

/-- Python `s.split(sep)` for a one-character separator: always returns
`n + 1` parts for `n` separators; `"".split(sep) = [""]`. -/
def splitOnChar (sep : Char) : List Char → List (List Char)
  | [] => [[]]
  | c :: rest =>
    if c = sep then [] :: splitOnChar sep rest
    else
      match splitOnChar sep rest with
      | [] => [[c]]
      | h :: t => (c :: h) :: t

/-- Split at the first occurrence of `sep` (Python `s.split(sep, 1)` when
`sep` occurs); `none` when `sep` does not occur. -/
def splitFirst (sep : Char) : List Char → Option (List Char × List Char)
  | [] => none
  | c :: rest =>
    if c = sep then some ([], rest)
    else (splitFirst sep rest).map (fun p => (c :: p.1, p.2))

/-- Index of the first character satisfying `p` (Python `str.find`). -/
def findIdxC (p : Char → Bool) : List Char → Option Nat
  | [] => none
  | c :: rest => if p c then some 0 else (findIdxC p rest).map (· + 1)

/-- Index of the last character satisfying `p` (Python `str.rfind`). -/
def rfindIdxC (p : Char → Bool) (s : List Char) : Option Nat :=
  match findIdxC p s.reverse with
  | some k => some (s.length - 1 - k)
  | none => none

/-! ## `urllib.parse.urlparse` -/

/-- The five components of `urlsplit` this program reads (params are folded
back into the path by `urlsplitPy`'s caller; see `urlparsePy`). -/
structure URLSplit where
  scheme : List Char
  netloc : List Char
  path : List Char
  query : List Char
  fragment : List Char
deriving DecidableEq

/-- CPython `scheme_chars`: letters, digits, `+`, `-`, `.`. -/
def schemeChar (c : Char) : Bool :=
  c.isAlphanum || c = '+' || c = '-' || c = '.'

/-- A netloc continues until `/`, `?` or `#` (CPython `_splitnetloc`). -/
def netlocChar (c : Char) : Bool :=
  !(c = '/' || c = '?' || c = '#')

/-- CPython `urllib.parse.urlsplit`: strip the unsafe bytes tab/CR/LF, split
off a valid `scheme:` prefix (lower-cased), a `//netloc`, then the fragment at
the first `#` and the query at the first `?`.  The bracketed-IPv6 validation
branch (which can raise) is outside the modelled subset; no claim involves
`[`/`]` netlocs. -/
def removeUnsafe (u : List Char) : List Char :=
  u.filter (fun c => !(c = '\t' || c = '\r' || c = '\n'))

/-- The `scheme:` split of `urlsplit`: the text before the first `:` is the
(lower-cased) scheme when it starts with an ASCII letter followed by
scheme characters. -/
def splitScheme (u : List Char) : List Char × List Char :=
  match findIdxC (fun c => c = ':') u with
  | some i =>
    if 0 < i ∧ u.head?.all Char.isAlpha ∧ ((u.take i).drop 1).all schemeChar
    then ((u.take i).map Char.toLower, u.drop (i + 1))
    else ([], u)
  | none => ([], u)

/-- The `//netloc` split of `urlsplit` (CPython `_splitnetloc`). -/
def splitNetloc (u : List Char) : List Char × List Char :=
  match u with
  | '/' :: '/' :: rest => (rest.takeWhile netlocChar, rest.dropWhile netlocChar)
  | _ => ([], u)

/-- The fragment split of `urlsplit`: at the first `#`. -/
def splitFragment (u : List Char) : List Char × List Char :=
  match splitFirst '#' u with
  | some pr => pr
  | none => (u, [])

/-- The query split of `urlsplit`: at the first `?`. -/
def splitQuery (u : List Char) : List Char × List Char :=
  match splitFirst '?' u with
  | some pr => pr
  | none => (u, [])

def urlsplitPy (url0 : List Char) : URLSplit :=
  ⟨(splitScheme (removeUnsafe url0)).1,
   (splitNetloc (splitScheme (removeUnsafe url0)).2).1,
   (splitQuery (splitFragment (splitNetloc (splitScheme (removeUnsafe url0)).2).2).1).1,
   (splitQuery (splitFragment (splitNetloc (splitScheme (removeUnsafe url0)).2).2).1).2,
   (splitFragment (splitNetloc (splitScheme (removeUnsafe url0)).2).2).2⟩

/-- CPython `_splitparams`: split the path at the first `;` that lies in its
last segment (at or after the last `/` when one exists). -/
def splitparams (u : List Char) : List Char × List Char :=
  let i? : Option Nat :=
    if u.contains '/' then
      match rfindIdxC (fun c => c = '/') u with
      | some j => (findIdxC (fun c => c = ';') (u.drop j)).map (· + j)
      | none => none
    else findIdxC (fun c => c = ';') u
  match i? with
  | some i => (u.take i, u.drop (i + 1))
  | none => (u, [])

/-- CPython `uses_params`: schemes for which `urlparse` splits `;params`
off the path. -/
def uses_params : List (List Char) :=
  [[], lc "ftp", lc "hdl", lc "prospero", lc "http", lc "imap", lc "https",
   lc "shttp", lc "rtsp", lc "rtspu", lc "sip", lc "sips", lc "mms",
   lc "sftp", lc "tel"]

/-- CPython `urllib.parse.urlparse`: `urlsplit`, then `;params` split off the
path for the schemes of `uses_params`. -/
def urlparsePy (url : List Char) : URLSplit :=
  let s := urlsplitPy url
  if uses_params.contains s.scheme && s.path.contains ';'
  then { s with path := (splitparams s.path).1 }
  else s

/-! ## `urllib.parse.parse_qs` -/

/-- CPython `parse_qsl` with the defaults the source uses
(`keep_blank_values=False`, `strict_parsing=False`, separator `&`): split the
query on `&`; skip empty fields, fields with no `=` and fields with an empty
value; `unquote_plus` both name and value. -/
def parse_qsl (qs : List Char) : List (List Char × List Char) :=
  (splitOnChar '&' qs).filterMap (fun pair =>
    if pair.isEmpty then none
    else
      match splitFirst '=' pair with
      | none => none
      | some nv =>
        if nv.2.isEmpty then none else some (unquotePlus nv.1, unquotePlus nv.2))

/-- `parse_qs(qs)[k][0]` guarded by `k in parse_qs(qs)`: the first value
listed for key `k`, in query-string order (`parse_qs` groups values per key
preserving order, so the first pair with key `k` carries it). -/
def lookupQ (q : List (List Char × List Char)) (k : List Char) : Option (List Char) :=
  (q.find? (fun p => p.1 == k)).map (fun p => p.2)

/-! ## The URL decoder (`parse_tsqlapp_url`) -/

/-- A sort direction (`'ASC'` / `'DESC'` in the source's dict). -/
inductive Direction where
  | ASC : Direction
  | DESC : Direction
deriving DecidableEq

/-- One entry of `result['sort_fields']`. -/
structure SortField where
  fieldId : Int
  direction : Direction
deriving DecidableEq

/-- The `result` dict built by `parse_tsqlapp_url`. -/
structure ParsedURL where
  domain : List Char
  card : Option (List Char)
  parent_id : Option Int
  child_card : Option (List Char)
  sort_fields : List SortField
  filter : Option (List Char)
  selected_id : Option Int
deriving DecidableEq

/-- `int(s)` raising `ValueError` with the offending token. -/
def pyIntE (s : List Char) : Except (List Char) Int :=
  match pyInt s with
  | some n => .ok n
  | none => .error s

/-- One iteration of the `ord` loop in `parse_tsqlapp_url` (lines 45–58):
`field = field.strip()`; a trailing `'d'` is stripped and the rest parsed as
a DESC field id, otherwise the whole (stripped) token is the ASC field id. -/
def parseOrdToken (tok : List Char) : Except (List Char) SortField :=
  let f := stripWS tok
  if f.getLast? = some 'd' then
    match pyInt f.dropLast with
    | some n => .ok ⟨n, .DESC⟩
    | none => .error f.dropLast
  else
    match pyInt f with
    | some n => .ok ⟨n, .ASC⟩
    | none => .error f

/-- The path-to-intent block of `parse_tsqlapp_url` (lines 35–42): `card`
from the first segment when one exists; a 3-segment path additionally parses
`parent_id` from the middle segment (fallibly) and takes `child_card` from
the third. -/
def pathStage (parts : List (List Char)) :
    Except (List Char) (Option (List Char) × Option Int × Option (List Char)) :=
  match parts with
  | [a, b, c] => (pyIntE b).map (fun n => (some a, some n, some c))
  | _ => .ok (parts.head?, (none : Option Int), (none : Option (List Char)))

/-- The `ord` block (lines 44–58): first occurrence of `ord`, split on `,`,
each token parsed by `parseOrdToken`; no `ord` gives the empty list. -/
def ordStage (q : List (List Char × List Char)) : Except (List Char) (List SortField) :=
  match lookupQ q (lc "ord") with
  | some v => (splitOnChar ',' v).mapM parseOrdToken
  | none => .ok []

/-- The `id` block (lines 64–66): first occurrence of `id`, parsed as an
integer (fallibly). -/
def idStage (q : List (List Char × List Char)) : Except (List Char) (Option Int) :=
  match lookupQ q (lc "id") with
  | some v => (pyIntE v).map some
  | none => .ok none

/-- The body of `parse_tsqlapp_url` after the stdlib calls: given
`parsed.netloc`, the non-empty path segments and the parsed query pairs,
build the result dict.  Mirrors the source's order of fallible operations:
`int(path_parts[1])` for a 3-segment path, then the `ord` loop, then
`int(query['id'][0])`; the `red` block (lines 60–62) is never fallible. -/
def decodeCore (netloc : List Char) (parts : List (List Char))
    (q : List (List Char × List Char)) : Except (List Char) ParsedURL := do
  let pathTriple ← pathStage parts
  let sfs ← ordStage q
  let sel ← idStage q
  .ok { domain := netloc, card := pathTriple.1, parent_id := pathTriple.2.1,
        child_card := pathTriple.2.2, sort_fields := sfs,
        filter := (lookupQ q (lc "red")).map unquote, selected_id := sel }

/-- `[p for p in parsed.path.split('/') if p]`. -/
def pathParts (u : List Char) : List (List Char) :=
  (splitOnChar '/' (urlparsePy u).path).filter (fun p => !p.isEmpty)

/-- `parse_qs(parsed.query)` as an ordered pair list. -/
def queryPairs (u : List Char) : List (List Char × List Char) :=
  parse_qsl (urlparsePy u).query

/-- `parse_tsqlapp_url` (the spec's `decode`): parse the URL with `urlparse`,
split the path, parse the query, and assemble the result dict; any
`ValueError` from `int(...)` aborts the whole decode carrying the offending
token. -/
def parse_tsqlapp_url (u : List Char) : Except (List Char) ParsedURL :=
  decodeCore (urlparsePy u).netloc (pathParts u) (queryPairs u)

/-! ## The query deriver (`generate_queries`) -/

/-- One entry of the list `generate_queries` returns. -/
structure Query where
  description : List Char
  sql : List Char
deriving DecidableEq

/-- Python decimal rendering `str(n)` of a natural number: auxiliary,
most-significant digit first, prepended to `acc`. -/
def natToStrAux (n : Nat) (acc : List Char) : List Char :=
  if h : n = 0 then acc
  else natToStrAux (n / 10) (Char.ofNat (48 + n % 10) :: acc)
termination_by n
decreasing_by exact Nat.div_lt_self (Nat.pos_of_ne_zero h) (by norm_num)

/-- Python `str(n)` for a natural number. -/
def natToStr (n : Nat) : List Char :=
  if n = 0 then ['0'] else natToStrAux n []

/-- Python `str(i)` for an integer. -/
def intToStr (i : Int) : List Char :=
  if i < 0 then '-' :: natToStr i.natAbs else natToStr i.toNat

/-- The `'ASC'` / `'DESC'` string stored in a sort-field dict. -/
def dirStr : Direction → List Char
  | .ASC => lc "ASC"
  | .DESC => lc "DESC"

/-- The card-lookup statement (lines 76–82 of `parse_url.py`). -/
def cardQuery (name : List Char) : Query :=
  ⟨ lc "Get card '" ++ name ++ lc "'",
    lc "SELECT id, name, tablename, basetable, reducer FROM api_card WHERE name = N'"
      ++ name ++ lc "'" ⟩

/-- The sort-field lookup statement (lines 84–89). -/
def sortQuery (sf : SortField) : Query :=
  ⟨ lc "Get sort field " ++ intToStr sf.fieldId ++ lc " (" ++ dirStr sf.direction ++ lc ")",
    lc "SELECT id, name, card_id FROM api_card_fields WHERE id = " ++ intToStr sf.fieldId ⟩

/-- The filter lookup statement (lines 91–96). -/
def filterQuery (f : List Char) : Query :=
  ⟨ lc "Get filter '" ++ f ++ lc "'",
    lc "SELECT id, name, sql FROM api_card_actions WHERE card_id = @card_id AND name = N'"
      ++ f ++ lc "' AND action = 'reducer'" ⟩

/-- The selected-record statement (lines 98–103). -/
def selectedQuery (i : Int) : Query :=
  ⟨ lc "Get selected record " ++ intToStr i,
    lc "SELECT * FROM {tablename} WHERE id = " ++ intToStr i ⟩

/-- The parent-record statement (lines 105–110). -/
def parentQuery (i : Int) : Query :=
  ⟨ lc "Get parent record " ++ intToStr i,
    lc "SELECT * FROM {parent_tablename} WHERE id = " ++ intToStr i ⟩

/-- Python truthiness of an optional string (`None` and `''` are falsy). -/
def truthyS : Option (List Char) → Bool
  | none => false
  | some s => !s.isEmpty

/-- Python truthiness of an optional integer (`None` and `0` are falsy). -/
def truthyI : Option Int → Bool
  | none => false
  | some i => decide (i ≠ 0)

/-- `generate_queries` (the spec's `derive`): card lookup for
`parsed['child_card'] or parsed['card']` when truthy, one statement per
`sort_fields` entry in order, then filter, selected-record and parent-record
statements when their fields are truthy. -/
def generate_queries (p : ParsedURL) : List Query :=
  let card_name := if truthyS p.child_card then p.child_card else p.card
  (if truthyS card_name then [cardQuery (card_name.getD [])] else [])
    ++ p.sort_fields.map sortQuery
    ++ (if truthyS p.filter then [filterQuery (p.filter.getD [])] else [])
    ++ (if truthyI p.selected_id then [selectedQuery (p.selected_id.getD 0)] else [])
    ++ (if truthyI p.parent_id then [parentQuery (p.parent_id.getD 0)] else [])

/-! ## The procedure catalog (`query_procedures.py`) -/

/-- One row of the procedure CSV: `ProcedureName` plus the remaining columns
(parameter name, type, size, required, output, default) as key–value pairs,
which the lookups return verbatim. -/
structure ProcRow where
  procedureName : List Char
  fields : List (List Char × List Char)
deriving DecidableEq

/-- Python `str.lower()` (ASCII subset). -/
def lowerS (s : List Char) : List Char := s.map Char.toLower

/-- `find_procedure` (lines 25–27 of `query_procedures.py`):
`[p for p in procedures if p['ProcedureName'].lower() == proc_name.lower()]`. -/
def find_procedure (procedures : List ProcRow) (proc_name : List Char) : List ProcRow :=
  procedures.filter (fun p => lowerS p.procedureName == lowerS proc_name)

/-- `search_procedures` (lines 30–37): collect into a set the names whose
lower-casing contains the lower-cased pattern as a substring, and return them
`sorted()`.  The set-then-sort is modelled as dedup-then-sort by the
code-point lexicographic order (Python's string `<`); with no duplicates the
sorted list is unique, so any correct sort is the Python output. -/
def search_procedures (procedures : List ProcRow) (pattern : List Char) : List (List Char) :=
  List.insertionSort (fun a b => a ≤ b)
    (((procedures.filter
        (fun p => decide (lowerS pattern <:+: lowerS p.procedureName))).map
      (fun p => p.procedureName)).dedup)

/-! ## Spec-side definitions for the claims -/

/-- A strictly numeric string in the sense of the spec's data-model invariant
("All integer fields must parse from strictly numeric substrings"): non-empty
and made of decimal digits only. -/
def strictNumeric (s : List Char) : Bool :=
  !s.isEmpty && s.all Char.isDigit

/-- First value of the `ord` query parameter of a URL, if present. -/
def ordValue (u : List Char) : Option (List Char) :=
  lookupQ (queryPairs u) (lc "ord")

/-- First value of the `id` query parameter of a URL, if present. -/
def idValue (u : List Char) : Option (List Char) :=
  lookupQ (queryPairs u) (lc "id")

/-- The path stage of the decode finds nothing to reject: either the path
does not have exactly three non-empty segments, or its middle segment parses
as an integer. -/
def pathOkB (u : List Char) : Bool :=
  (pathStage (pathParts u)).isOk

/-- The `ord` stage of the decode finds nothing to reject: either there is no
`ord` parameter, or every comma token of its first value parses. -/
def ordOkB (u : List Char) : Bool :=
  (ordStage (queryPairs u)).isOk

/-- The per-`ord`-token rule exactly as claim C5 states it, with no
whitespace stripping: a token ending in the literal suffix `d` has the suffix
stripped and the remainder parsed as the field id with direction DESC,
otherwise the whole token is parsed as the field id with direction ASC. -/
def claimOrdToken (tok : List Char) : Except (List Char) SortField :=
  if tok.getLast? = some 'd' then
    match pyInt tok.dropLast with
    | some n => .ok ⟨n, .DESC⟩
    | none => .error tok.dropLast
  else
    match pyInt tok with
    | some n => .ok ⟨n, .ASC⟩
    | none => .error tok

/-- Modelled from the spec (claim C5 as amended): each comma-separated token
is first stripped of surrounding whitespace; if the stripped token ends with
the literal suffix `d` the suffix is stripped and the remainder parsed as the
field id with direction DESC, otherwise the whole stripped token is parsed as
the field id with direction ASC. -/
def specOrdToken (tok : List Char) : Except (List Char) SortField :=
  let f := stripWS tok
  if f.getLast? = some 'd' then
    match pyInt f.dropLast with
    | some n => .ok ⟨n, .DESC⟩
    | none => .error f.dropLast
  else
    match pyInt f with
    | some n => .ok ⟨n, .ASC⟩
    | none => .error f

/-! ## Building a URL from a `ParsedURL` (the round-trip claim C1)

Modelled from the spec's input grammar (§6):
`scheme://domain/segment[/segment/segment]?ord=<id>[d][,<id>[d]...]&red=<urlencoded-name>&id=<integer>`. -/

/-- Join pieces with a one-character separator (inverse of `splitOnChar`). -/
def joinSep (sep : Char) : List (List Char) → List Char
  | [] => []
  | [x] => x
  | x :: xs => x ++ sep :: joinSep sep xs

/-- The `ord` token for one sort field: the field id, with the `d` suffix
for DESC. -/
def ordTokenOf (sf : SortField) : List Char :=
  intToStr sf.fieldId ++ (match sf.direction with | .DESC => ['d'] | .ASC => [])

/-- An RFC 3986 unreserved character (kept verbatim by URL-encoding). -/
def unreservedChar (c : Char) : Bool :=
  c.isAlphanum || c = '-' || c = '.' || c = '_' || c = '~'

/-- Upper-case hex digit of a value `< 16`. -/
def hexDigitU (n : Nat) : Char :=
  if n < 10 then Char.ofNat (48 + n) else Char.ofNat (55 + n)

/-- Percent-encode one character (code point `< 256`); unreserved characters
stay verbatim. -/
def quoteChar (c : Char) : List Char :=
  if unreservedChar c then [c]
  else ['%', hexDigitU (c.toNat / 16), hexDigitU (c.toNat % 16)]

/-- URL-encode a string character-wise. -/
def quoteStr (s : List Char) : List Char := s.flatMap quoteChar

/-- Modelled from the spec's input grammar (§6): the path written for `p`
without its leading slash — `card` or `card/parentId/childCard`. -/
def pathBody (p : ParsedURL) : List Char :=
  p.card.getD []
    ++ (match p.parent_id, p.child_card with
        | some i, some c => '/' :: intToStr i ++ '/' :: c
        | _, _ => [])

/-- Modelled from the spec: the `key=value` query items of the URL built for
`p`, in the grammar's parameter order `ord`, `red`, `id`, each omitted when
its field is absent (`ord` when `sortFields` is empty); the `red` value is
URL-encoded. -/
def buildItems (p : ParsedURL) : List (List Char) :=
  (if p.sort_fields.isEmpty then []
   else [lc "ord=" ++ joinSep ',' (p.sort_fields.map ordTokenOf)])
    ++ (match p.filter with | some f => [lc "red=" ++ quoteStr f] | none => [])
    ++ (match p.selected_id with | some i => [lc "id=" ++ intToStr i] | none => [])

/-- Modelled from the spec: the query string (with its `?`), empty when no
parameter is present. -/
def buildQuery (p : ParsedURL) : List Char :=
  if (buildItems p).isEmpty then [] else '?' :: joinSep '&' (buildItems p)

/-- Modelled from the spec's input grammar (§6): the URL built from a
`ParsedURL` — `https://domain/card` or `https://domain/card/parentId/childCard`,
followed by the query string. -/
def buildURL (p : ParsedURL) : List Char :=
  lc "https://" ++ p.domain ++ '/' :: pathBody p ++ buildQuery p

/-- Characters surviving `urlsplit`'s unsafe-byte removal (all but
tab/CR/LF). -/
def urlOkChar (c : Char) : Bool :=
  !(c = '\t' || c = '\r' || c = '\n')

/-- The characters that can occur in an `ord`/`id` query value or a numeric
path segment of a built URL: digits, `-`, `d`, `,`. -/
def tokenChar (c : Char) : Bool :=
  c.isDigit || c = '-' || c = 'd' || c = ','

/-- Upper-case hex digit character. -/
def hexUpChar (c : Char) : Bool :=
  c.isDigit || (decide ('A' ≤ c) && decide (c ≤ 'F'))

/-- The characters that can occur in a URL-encoded (`quoteStr`) value. -/
def qsafeChar (c : Char) : Bool :=
  unreservedChar c || c = '%' || hexUpChar c

/-- A URL-safe name character for the grammar's `domain` and `segment`
tokens: alphanumeric or one of `-`, `_`, `.`, `~` (the unreserved
characters, which `urlparse` passes through untouched). -/
def safeNameChar (c : Char) : Bool :=
  c.isAlphanum || c = '-' || c = '_' || c = '.' || c = '~'

/-- A filter character that survives the decoder's double percent-decoding:
ASCII and not `%` (the decoder percent-decodes the `red` value once inside
`parse_qs` and then once more explicitly, so a literal `%` in the filter name
is re-interpreted as an escape on the second pass). -/
def safeFilterChar (c : Char) : Bool :=
  decide (c.toNat < 128) && !(c = '%')

/-- The hypothesis of the amended round-trip claim C1: `card` present,
non-empty and URL-safe; `parentId`/`childCard` both absent or both present
with a non-empty URL-safe `childCard`; `domain` URL-safe; `filter`, when
present, non-empty, ASCII and `%`-free.  Sort fields and the integer ids are
unrestricted. -/
def safeParsedURL (p : ParsedURL) : Bool :=
  p.domain.all safeNameChar
    && (match p.card with
        | some c => !c.isEmpty && c.all safeNameChar
        | none => false)
    && (match p.parent_id, p.child_card with
        | none, none => true
        | some _, some c => !c.isEmpty && c.all safeNameChar
        | _, _ => false)
    && (match p.filter with
        | none => true
        | some f => !f.isEmpty && f.all safeFilterChar)

/-! # Lemmas and claim theorems -/

/-! ## Decimal rendering and Python `int` parsing -/

theorem dropWhile_eq_self_of {p : Char → Bool} {l : List Char}
    (h : ∀ c ∈ l, p c = false) : l.dropWhile p = l := by
  cases l with
  | nil => rfl
  | cons c rest =>
    rw [List.dropWhile_cons, if_neg]
    simp [h c (by simp)]

theorem stripWS_of_all {l : List Char} (h : ∀ c ∈ l, isPyWS c = false) :
    stripWS l = l := by
  unfold stripWS
  rw [dropWhile_eq_self_of h, dropWhile_eq_self_of (fun c hc => h c (List.mem_reverse.mp hc)),
    List.reverse_reverse]

theorem isDigit_not_ws {c : Char} (h : c.isDigit = true) : isPyWS c = false := by
  by_contra hw
  have hw' : isPyWS c = true := by revert hw; cases isPyWS c <;> simp
  simp only [isPyWS, Bool.or_eq_true, decide_eq_true_eq] at hw'
  rcases hw' with ((((rfl | rfl) | rfl) | rfl) | rfl) | rfl <;> exact absurd h (by decide)

theorem isDigit_ne_chars {c : Char} (h : c.isDigit = true) :
    c ≠ '+' ∧ c ≠ '-' ∧ c ≠ '_' ∧ c ≠ 'd' ∧ c ≠ ',' ∧ c ≠ '&' ∧ c ≠ '=' ∧ c ≠ '%' := by
  refine ⟨?_, ?_, ?_, ?_, ?_, ?_, ?_, ?_⟩ <;> (rintro rfl; exact absurd h (by decide))

theorem digit_isDigit {k : Nat} (hk : k < 10) : (Char.ofNat (48 + k)).isDigit = true := by
  interval_cases k <;> decide

theorem digitVal_digit {k : Nat} (hk : k < 10) : digitVal (Char.ofNat (48 + k)) = k := by
  interval_cases k <;> decide

theorem natToStrAux_of_ne {n : Nat} (h : n ≠ 0) (acc : List Char) :
    natToStrAux n acc = natToStrAux (n / 10) (Char.ofNat (48 + n % 10) :: acc) := by
  conv_lhs => rw [natToStrAux]
  rw [dif_neg h]

theorem natToStrAux_acc (n : Nat) : ∀ acc, natToStrAux n acc = natToStrAux n [] ++ acc := by
  induction n using Nat.strong_induction_on with
  | _ n ih =>
    intro acc
    by_cases h : n = 0
    · subst h; simp [natToStrAux]
    · have h10 : n / 10 < n := Nat.div_lt_self (Nat.pos_of_ne_zero h) (by norm_num)
      rw [natToStrAux_of_ne h acc, natToStrAux_of_ne h ([]),
        ih _ h10 (Char.ofNat (48 + n % 10) :: acc), ih _ h10 [Char.ofNat (48 + n % 10)]]
      simp

theorem natToStrAux_concat {n : Nat} (h : n ≠ 0) :
    natToStrAux n [] = natToStrAux (n / 10) [] ++ [Char.ofNat (48 + n % 10)] := by
  rw [natToStrAux_of_ne h, natToStrAux_acc]

theorem natToStrAux_digits (n : Nat) : ∀ c ∈ natToStrAux n [], c.isDigit = true := by
  induction n using Nat.strong_induction_on with
  | _ n ih =>
    intro c hc
    by_cases h : n = 0
    · subst h; simp [natToStrAux] at hc
    · rw [natToStrAux_concat h] at hc
      rcases List.mem_append.mp hc with hm | hm
      · exact ih (n / 10) (Nat.div_lt_self (Nat.pos_of_ne_zero h) (by norm_num)) c hm
      · rcases List.mem_singleton.mp hm with rfl
        exact digit_isDigit (Nat.mod_lt n (by norm_num))

theorem natToStr_digits (n : Nat) : ∀ c ∈ natToStr n, c.isDigit = true := by
  unfold natToStr
  by_cases h : n = 0
  · rw [if_pos h]; intro c hc; rcases List.mem_singleton.mp hc with rfl; decide
  · rw [if_neg h]; exact natToStrAux_digits n

theorem natToStr_ne_nil (n : Nat) : natToStr n ≠ [] := by
  unfold natToStr
  by_cases h : n = 0
  · rw [if_pos h]; simp
  · rw [if_neg h, natToStrAux_concat h]; simp

theorem digitsVal_concat (a : List Char) (d : Char) :
    digitsVal (a ++ [d]) = digitsVal a * 10 + digitVal d := by
  simp [digitsVal, List.foldl_append]

theorem digitsVal_natToStrAux (n : Nat) : digitsVal (natToStrAux n []) = n := by
  induction n using Nat.strong_induction_on with
  | _ n ih =>
    by_cases h : n = 0
    · subst h; simp [natToStrAux, digitsVal]
    · rw [natToStrAux_concat h, digitsVal_concat,
        ih (n / 10) (Nat.div_lt_self (Nat.pos_of_ne_zero h) (by norm_num)),
        digitVal_digit (Nat.mod_lt n (by norm_num))]
      omega

theorem digitsVal_natToStr (n : Nat) : digitsVal (natToStr n) = n := by
  unfold natToStr
  by_cases h : n = 0
  · rw [if_pos h, h]; decide
  · rw [if_neg h]; exact digitsVal_natToStrAux n

theorem digitsCore_digits {l : List Char} (h : ∀ c ∈ l, c.isDigit = true) :
    ∀ acc, digitsCore acc l = some (l.foldl (fun a c => a * 10 + digitVal c) acc) := by
  induction l with
  | nil => intro acc; rfl
  | cons c rest ih =>
    intro acc
    have hd := h c (by simp)
    rw [digitsCore.eq_def]
    simp only [(isDigit_ne_chars hd).2.2.1, if_neg, if_false, hd, if_true, List.foldl_cons]
    exact ih (fun x hx => h x (by simp [hx])) _

theorem parseDigits_digits {l : List Char} (hne : l ≠ []) (h : ∀ c ∈ l, c.isDigit = true) :
    parseDigits l = some (digitsVal l) := by
  cases l with
  | nil => exact absurd rfl hne
  | cons c rest =>
    rw [parseDigits, if_pos (h c (by simp)),
      digitsCore_digits (fun x hx => h x (by simp [hx]))]
    simp [digitsVal]

theorem pyInt_digits {l : List Char} (hne : l ≠ []) (h : ∀ c ∈ l, c.isDigit = true) :
    pyInt l = some ((digitsVal l : Int)) := by
  rw [pyInt, stripWS_of_all (fun c hc => isDigit_not_ws (h c hc))]
  cases l with
  | nil => exact absurd rfl hne
  | cons c rest =>
    have hd := h c (by simp)
    rw [pyIntCore, if_neg (isDigit_ne_chars hd).1, if_neg (isDigit_ne_chars hd).2.1,
      parseDigits_digits (by simp) h]
    simp [digitsVal]

theorem pyInt_natToStr (n : Nat) : pyInt (natToStr n) = some (n : Int) := by
  rw [pyInt_digits (natToStr_ne_nil n) (natToStr_digits n), digitsVal_natToStr]

theorem pyInt_intToStr (i : Int) : pyInt (intToStr i) = some i := by
  unfold intToStr
  by_cases h : i < 0
  · rw [if_pos h, pyInt]
    have hmem : ∀ c ∈ '-' :: natToStr i.natAbs, isPyWS c = false := by
      intro c hc
      rcases List.mem_cons.mp hc with rfl | hm
      · decide
      · exact isDigit_not_ws (natToStr_digits _ c hm)
    rw [stripWS_of_all hmem, pyIntCore, if_neg (by decide), if_pos rfl,
      parseDigits_digits (natToStr_ne_nil _) (natToStr_digits _), digitsVal_natToStr]
    show some (-(i.natAbs : Int)) = some i
    congr 1
    omega
  · rw [if_neg h, pyInt_natToStr]
    congr 1
    omega

theorem intToStr_inj : Function.Injective intToStr := by
  intro a b hab
  have ha := pyInt_intToStr a
  rw [hab, pyInt_intToStr b] at ha
  exact (Option.some.injEq ..).mp ha.symm

/-! ## Statement shapes: injectivity and mutual distinctness -/

theorem dirStr_inj : Function.Injective dirStr := by
  intro a b h
  cases a <;> cases b <;> first | rfl | (exfalso; revert h; decide)

theorem sortQuery_inj : Function.Injective sortQuery := by
  rintro ⟨ai, ad⟩ ⟨bi, bd⟩ h
  simp only [sortQuery, Query.mk.injEq] at h
  obtain ⟨hd, hs⟩ := h
  have hfid : ai = bi := intToStr_inj (List.append_cancel_left hs)
  subst hfid
  simp only [List.append_assoc] at hd
  have h1 := List.append_cancel_left (List.append_cancel_left (List.append_cancel_left hd))
  rw [dirStr_inj (List.append_cancel_right h1)]

theorem ne_by_prefix {n : Nat} {p q : List Char} (x y : List Char) (hp : n ≤ p.length)
    (hq : n ≤ q.length) (hne : p.take n ≠ q.take n) : p ++ x ≠ q ++ y := by
  intro h
  exact hne (by rw [← @List.take_append_of_le_length _ p x n hp,
    ← @List.take_append_of_le_length _ q y n hq, h])

theorem cardQuery_ne_sortQuery (nm : List Char) (sf : SortField) :
    cardQuery nm ≠ sortQuery sf := by
  intro h
  have hd := congrArg Query.description h
  simp only [cardQuery, sortQuery, List.append_assoc] at hd
  exact ne_by_prefix (n := 5) _ _ (by decide) (by decide) (by decide) hd

theorem filterQuery_ne_sortQuery (f : List Char) (sf : SortField) :
    filterQuery f ≠ sortQuery sf := by
  intro h
  have hd := congrArg Query.description h
  simp only [filterQuery, sortQuery, List.append_assoc] at hd
  exact ne_by_prefix (n := 5) _ _ (by decide) (by decide) (by decide) hd

theorem selectedQuery_ne_sortQuery (i : Int) (sf : SortField) :
    selectedQuery i ≠ sortQuery sf := by
  intro h
  have hd := congrArg Query.description h
  simp only [selectedQuery, sortQuery, List.append_assoc] at hd
  exact ne_by_prefix (n := 7) _ _ (by decide) (by decide) (by decide) hd

theorem parentQuery_ne_sortQuery (i : Int) (sf : SortField) :
    parentQuery i ≠ sortQuery sf := by
  intro h
  have hd := congrArg Query.description h
  simp only [parentQuery, sortQuery, List.append_assoc] at hd
  exact ne_by_prefix (n := 5) _ _ (by decide) (by decide) (by decide) hd

theorem cardQuery_ne_filterQuery (nm f : List Char) :
    cardQuery nm ≠ filterQuery f := by
  intro h
  have hd := congrArg Query.description h
  simp only [cardQuery, filterQuery, List.append_assoc] at hd
  exact ne_by_prefix (n := 5) _ _ (by decide) (by decide) (by decide) hd

theorem cardQuery_ne_selectedQuery (nm : List Char) (i : Int) :
    cardQuery nm ≠ selectedQuery i := by
  intro h
  have hd := congrArg Query.description h
  simp only [cardQuery, selectedQuery, List.append_assoc] at hd
  exact ne_by_prefix (n := 5) _ _ (by decide) (by decide) (by decide) hd

theorem cardQuery_ne_parentQuery (nm : List Char) (i : Int) :
    cardQuery nm ≠ parentQuery i := by
  intro h
  have hd := congrArg Query.description h
  simp only [cardQuery, parentQuery, List.append_assoc] at hd
  exact ne_by_prefix (n := 5) _ _ (by decide) (by decide) (by decide) hd

theorem filterQuery_ne_selectedQuery (f : List Char) (i : Int) :
    filterQuery f ≠ selectedQuery i := by
  intro h
  have hd := congrArg Query.description h
  simp only [filterQuery, selectedQuery, List.append_assoc] at hd
  exact ne_by_prefix (n := 5) _ _ (by decide) (by decide) (by decide) hd

theorem filterQuery_ne_parentQuery (f : List Char) (i : Int) :
    filterQuery f ≠ parentQuery i := by
  intro h
  have hd := congrArg Query.description h
  simp only [filterQuery, parentQuery, List.append_assoc] at hd
  exact ne_by_prefix (n := 5) _ _ (by decide) (by decide) (by decide) hd

theorem selectedQuery_ne_parentQuery (i j : Int) :
    selectedQuery i ≠ parentQuery j := by
  intro h
  have hd := congrArg Query.description h
  simp only [selectedQuery, parentQuery, List.append_assoc] at hd
  exact ne_by_prefix (n := 5) _ _ (by decide) (by decide) (by decide) hd

/-- `generate_queries` unfolded to its five appended groups. -/
theorem generate_queries_eq (p : ParsedURL) :
    generate_queries p =
      (if truthyS (if truthyS p.child_card then p.child_card else p.card) then
        [cardQuery ((if truthyS p.child_card then p.child_card else p.card).getD [])] else [])
      ++ p.sort_fields.map sortQuery
      ++ (if truthyS p.filter then [filterQuery (p.filter.getD [])] else [])
      ++ (if truthyI p.selected_id then [selectedQuery (p.selected_id.getD 0)] else [])
      ++ (if truthyI p.parent_id then [parentQuery (p.parent_id.getD 0)] else []) := rfl

/-! ## Claim C2 -/

/-- C2 (as amended): on a fully populated `ParsedURL` whose populated values
are truthy — `card` a non-empty name (no `childCard`), exactly one sort
field, a non-empty `filter`, a non-zero `selectedId` and a non-zero
`parentId` — `generate_queries` produces exactly the 5 statements in the
fixed order card, sort-field, filter, selected-record, parent-record. -/
theorem C2_fully_populated_five_statements (p : ParsedURL) (c f : List Char)
    (sf : SortField) (i j : Int)
    (hc : p.card = some c) (hcne : c ≠ [])
    (hchild : p.child_card = none) (hsf : p.sort_fields = [sf])
    (hf : p.filter = some f) (hfne : f ≠ [])
    (hi : p.selected_id = some i) (hine : i ≠ 0)
    (hj : p.parent_id = some j) (hjne : j ≠ 0) :
    generate_queries p
      = [cardQuery c, sortQuery sf, filterQuery f, selectedQuery i, parentQuery j] := by
  rw [generate_queries_eq]
  simp [hc, hchild, hsf, hf, hi, hj, truthyS, truthyI, hcne, hfne, hine, hjne]

theorem C2_witness :
    generate_queries
        ⟨lc "h", some (lc "c"), some 7, none, [⟨10, Direction.ASC⟩], some (lc "f"), some 5⟩
      = [cardQuery (lc "c"), sortQuery ⟨10, Direction.ASC⟩, filterQuery (lc "f"),
         selectedQuery 5, parentQuery 7] :=
  C2_fully_populated_five_statements _ (lc "c") (lc "f") ⟨10, Direction.ASC⟩ 5 7
    rfl (by decide) rfl rfl rfl (by decide) rfl (by decide) rfl (by decide)

/-- C2 counterexample: a fully populated `ParsedURL` whose `selectedId` is the
set-but-falsy value `0` yields only 4 statements — the selected-record lookup
is dropped although its field is set, so the claim's unconditional
"exactly 5 statements" fails. -/
theorem C2_counterexample :
    generate_queries ⟨lc "h", some (lc "c"), some 7, none, [⟨10, Direction.ASC⟩],
        some (lc "f"), some 0⟩
      = [cardQuery (lc "c"), sortQuery ⟨10, Direction.ASC⟩, filterQuery (lc "f"), parentQuery 7]
    ∧ (generate_queries ⟨lc "h", some (lc "c"), some 7, none, [⟨10, Direction.ASC⟩],
        some (lc "f"), some 0⟩).length = 4 :=
  ⟨rfl, rfl⟩

/-! ## Claim C9 -/

/-- C9 (as amended): when only `card` is set, to a non-empty name, and every
other field is unset, `generate_queries` produces exactly the one card-lookup
statement; and when a non-empty `childCard` is also set, the single statement
uses `childCard` as the effective card name. -/
theorem C9_card_only_single_statement (p : ParsedURL) (c : List Char)
    (hc : p.card = some c) (hcne : c ≠ [])
    (hsf : p.sort_fields = []) (hf : p.filter = none)
    (hsel : p.selected_id = none) (hpar : p.parent_id = none) :
    (p.child_card = none → generate_queries p = [cardQuery c])
    ∧ (∀ d, p.child_card = some d → d ≠ [] → generate_queries p = [cardQuery d]) := by
  constructor
  · intro hch
    rw [generate_queries_eq]
    simp [hc, hch, hsf, hf, hsel, hpar, truthyS, truthyI, hcne]
  · intro d hch hdne
    rw [generate_queries_eq]
    simp [hc, hch, hsf, hf, hsel, hpar, truthyS, truthyI, hdne]

theorem C9_witness :
    generate_queries ⟨lc "h", some (lc "mycard"), none, none, [], none, none⟩
      = [cardQuery (lc "mycard")] :=
  (C9_card_only_single_statement _ (lc "mycard") rfl (by decide) rfl rfl rfl rfl).1 rfl

/-- C9 counterexample: with `card` set to the empty string (set but falsy) and
nothing else set, `generate_queries` produces no statement at all, not one. -/
theorem C9_counterexample :
    generate_queries ⟨lc "h", some (lc ""), none, none, [], none, none⟩ = [] := rfl

/-! ## Claim C3 -/

/-- C3 (as amended): every statement whose triggering field is present *and
truthy* appears in `generate_queries`'s output, but statements are *not*
deduplicated: each `sort_fields` entry contributes its own statement, so the
multiplicity of a sort statement equals the multiplicity of its entry
(duplicate entries produce duplicate statements); and statements of
different kinds never coincide — all ten pairs of the five statement kinds
are distinct whatever their arguments. -/
theorem C3_statement_presence_and_multiplicity (p : ParsedURL) :
    (∀ sf : SortField, (generate_queries p).count (sortQuery sf) = p.sort_fields.count sf)
    ∧ (∀ c, (if truthyS p.child_card then p.child_card else p.card) = some c → c ≠ [] →
        cardQuery c ∈ generate_queries p)
    ∧ (∀ f, p.filter = some f → f ≠ [] → filterQuery f ∈ generate_queries p)
    ∧ (∀ i, p.selected_id = some i → i ≠ 0 → selectedQuery i ∈ generate_queries p)
    ∧ (∀ j, p.parent_id = some j → j ≠ 0 → parentQuery j ∈ generate_queries p)
    ∧ (∀ nm f : List Char, ∀ i j : Int, ∀ sf : SortField,
        cardQuery nm ≠ sortQuery sf ∧ cardQuery nm ≠ filterQuery f
        ∧ cardQuery nm ≠ selectedQuery i ∧ cardQuery nm ≠ parentQuery j
        ∧ filterQuery f ≠ sortQuery sf ∧ filterQuery f ≠ selectedQuery i
        ∧ filterQuery f ≠ parentQuery j ∧ selectedQuery i ≠ sortQuery sf
        ∧ selectedQuery i ≠ parentQuery j ∧ parentQuery j ≠ sortQuery sf) := by
  have count_ite : ∀ (b : Prop) (inst : Decidable b) (q r : Query), q ≠ r →
      List.count r (if b then [q] else []) = 0 := by
    intro b inst q r h
    split_ifs
    · simp [List.count_singleton, h]
    · rfl
  refine ⟨?_, ?_, ?_, ?_, ?_, ?_⟩
  · intro sf
    rw [generate_queries_eq]
    simp only [List.count_append]
    rw [count_ite _ _ _ _ (cardQuery_ne_sortQuery _ sf),
      count_ite _ _ _ _ (filterQuery_ne_sortQuery _ sf),
      count_ite _ _ _ _ (selectedQuery_ne_sortQuery _ sf),
      count_ite _ _ _ _ (parentQuery_ne_sortQuery _ sf),
      List.count_map_of_injective _ _ sortQuery_inj]
    omega
  · intro c hc hcne
    rw [generate_queries_eq, hc]
    simp [truthyS, hcne]
  · intro f hf hfne
    rw [generate_queries_eq, hf]
    simp [truthyS, hfne]
  · intro i hi hine
    rw [generate_queries_eq, hi]
    simp [truthyI, hine]
  · intro j hj hjne
    rw [generate_queries_eq, hj]
    simp [truthyI, hjne]
  · intro nm f i j sf
    exact ⟨cardQuery_ne_sortQuery nm sf, cardQuery_ne_filterQuery nm f,
      cardQuery_ne_selectedQuery nm i, cardQuery_ne_parentQuery nm j,
      filterQuery_ne_sortQuery f sf, filterQuery_ne_selectedQuery f i,
      filterQuery_ne_parentQuery f j, selectedQuery_ne_sortQuery i sf,
      selectedQuery_ne_parentQuery i j, parentQuery_ne_sortQuery j sf⟩

theorem C3_witness :
    cardQuery (lc "c")
        ∈ generate_queries
            ⟨lc "h", some (lc "c"), none, none, [⟨10, Direction.ASC⟩, ⟨10, Direction.ASC⟩],
             none, none⟩
    ∧ (generate_queries
          ⟨lc "h", some (lc "c"), none, none, [⟨10, Direction.ASC⟩, ⟨10, Direction.ASC⟩],
           none, none⟩).count (sortQuery ⟨10, Direction.ASC⟩) = 2 :=
  ⟨(C3_statement_presence_and_multiplicity _).2.1 (lc "c") rfl (by decide),
   ((C3_statement_presence_and_multiplicity _).1 ⟨10, Direction.ASC⟩).trans (by decide)⟩

/-- C3 counterexample: two identical sort-field entries produce two identical
statements — the output is not duplicate-free, contradicting the claim's "the
sequence contains no duplicate statement". -/
theorem C3_counterexample :
    ¬ (generate_queries
        ⟨lc "h", some (lc "c"), none, none, [⟨10, Direction.ASC⟩, ⟨10, Direction.ASC⟩],
         none, none⟩).Nodup := by
  intro h
  have e : generate_queries
      ⟨lc "h", some (lc "c"), none, none, [⟨10, Direction.ASC⟩, ⟨10, Direction.ASC⟩],
       none, none⟩
      = [cardQuery (lc "c"), sortQuery ⟨10, Direction.ASC⟩, sortQuery ⟨10, Direction.ASC⟩] := rfl
  rw [e] at h
  simp [List.nodup_cons] at h

/-! ## Claim C10 -/

/-- C10: `find_procedure` matches procedure names case-insensitively and
returns all parameter records of the matched procedure in catalog order
(its result is a sublist of the catalog containing exactly the rows whose
lower-cased name matches, and it is invariant under re-casing the query);
`search_procedures` matches case-insensitively as a substring and returns
exactly the distinct matching procedure names, duplicate-free and sorted. -/
theorem C10_catalog_lookups (cat : List ProcRow) (name pat : List Char) :
    (find_procedure cat name).Sublist cat
    ∧ (∀ r : ProcRow, r ∈ find_procedure cat name
        ↔ r ∈ cat ∧ lowerS r.procedureName = lowerS name)
    ∧ (∀ m, lowerS m = lowerS name → find_procedure cat m = find_procedure cat name)
    ∧ (search_procedures cat pat).Nodup
    ∧ (search_procedures cat pat).Sorted (fun a b => a ≤ b)
    ∧ (∀ x, x ∈ search_procedures cat pat
        ↔ ∃ r ∈ cat, r.procedureName = x ∧ lowerS pat <:+: lowerS x) := by
  refine ⟨List.filter_sublist _, ?_, ?_, ?_, ?_, ?_⟩
  · intro r
    simp [find_procedure, List.mem_filter]
  · intro m hm
    simp [find_procedure, hm]
  · exact ((List.perm_insertionSort _ _).nodup_iff).mpr (List.nodup_dedup _)
  · exact List.sorted_insertionSort _ _
  · intro x
    rw [search_procedures, (List.perm_insertionSort _ _).mem_iff, List.mem_dedup]
    simp only [List.mem_map, List.mem_filter, decide_eq_true_eq]
    constructor
    · rintro ⟨r, ⟨hr, hinf⟩, rfl⟩
      exact ⟨r, hr, rfl, hinf⟩
    · rintro ⟨r, hr, rfl, hinf⟩
      exact ⟨r, ⟨hr, hinf⟩, rfl⟩

theorem C10_witness :
    find_procedure [ProcRow.mk (lc "sp_x") [], ProcRow.mk (lc "SP_y") []] (lc "SP_X")
      = find_procedure [ProcRow.mk (lc "sp_x") [], ProcRow.mk (lc "SP_y") []] (lc "sp_x")
    ∧ (search_procedures [ProcRow.mk (lc "sp_x") [], ProcRow.mk (lc "SP_y") []]
        (lc "s")).Sorted (fun a b => a ≤ b) :=
  ⟨(C10_catalog_lookups [ProcRow.mk (lc "sp_x") [], ProcRow.mk (lc "SP_y") []]
      (lc "sp_x") (lc "s")).2.2.1 (lc "SP_X") (by decide),
   (C10_catalog_lookups [ProcRow.mk (lc "sp_x") [], ProcRow.mk (lc "SP_y") []]
      (lc "sp_x") (lc "s")).2.2.2.2.1⟩

/-! ## Decode-stage lemmas -/

theorem okBind {α β : Type} (a : α) (f : α → Except (List Char) β) :
    (Except.ok a >>= f) = f a := rfl

theorem errBind {α β : Type} (e : List Char) (f : α → Except (List Char) β) :
    ((Except.error e : Except (List Char) α) >>= f) = .error e := rfl

theorem pathStage_three {a m c : List Char} {n : Int} (h : pyInt m = some n) :
    pathStage [a, m, c] = .ok (some a, some n, some c) := by
  simp [pathStage, pyIntE, h, Except.map]

theorem pathStage_three_err {a m c : List Char} (h : pyInt m = none) :
    pathStage [a, m, c] = .error m := by
  simp [pathStage, pyIntE, h, Except.map]

theorem pathStage_other (parts : List (List Char)) (h : parts.length ≠ 3) :
    pathStage parts = .ok (parts.head?, none, none) := by
  rcases parts with _ | ⟨a, _ | ⟨b, _ | ⟨c, _ | ⟨d, rest⟩⟩⟩⟩ <;> simp_all [pathStage]

theorem pathStage_ok_inv {parts : List (List Char)}
    {t : Option (List Char) × Option Int × Option (List Char)}
    (h : pathStage parts = .ok t) :
    (∃ a m c n, parts = [a, m, c] ∧ pyInt m = some n ∧ t = (some a, some n, some c))
    ∨ (parts.length ≠ 3 ∧ t = (parts.head?, none, none)) := by
  rcases parts with _ | ⟨a, _ | ⟨b, _ | ⟨c, _ | ⟨d, rest⟩⟩⟩⟩
  · right; simp [pathStage] at h; simp [← h]
  · right; simp [pathStage] at h; simp [← h]
  · right; simp [pathStage] at h; simp [← h]
  · rcases hm : pyInt b with _ | n
    · rw [pathStage_three_err hm] at h; exact absurd h (by simp)
    · rw [pathStage_three hm] at h
      simp only [Except.ok.injEq] at h
      exact Or.inl ⟨a, b, c, n, rfl, hm, h.symm⟩
  · right
    constructor
    · simp
    · simp [pathStage] at h
      simp [← h]

theorem ordStage_none (q : List (List Char × List Char))
    (h : lookupQ q (lc "ord") = none) : ordStage q = .ok [] := by
  simp [ordStage, h]

theorem ordStage_some {q : List (List Char × List Char)} {v : List Char}
    (h : lookupQ q (lc "ord") = some v) :
    ordStage q = (splitOnChar ',' v).mapM parseOrdToken := by
  simp [ordStage, h]

theorem idStage_none (q : List (List Char × List Char))
    (h : lookupQ q (lc "id") = none) : idStage q = .ok none := by
  simp [idStage, h]

theorem idStage_some_ok {q : List (List Char × List Char)} {v : List Char} {n : Int}
    (h : lookupQ q (lc "id") = some v) (hv : pyInt v = some n) :
    idStage q = .ok (some n) := by
  simp [idStage, h, pyIntE, hv, Except.map]

theorem idStage_some_err {q : List (List Char × List Char)} {v : List Char}
    (h : lookupQ q (lc "id") = some v) (hv : pyInt v = none) :
    idStage q = .error v := by
  simp [idStage, h, pyIntE, hv, Except.map]

theorem decodeCore_ok {nl : List Char} {parts : List (List Char)}
    {q : List (List Char × List Char)}
    {t : Option (List Char) × Option Int × Option (List Char)}
    {sfs : List SortField} {sel : Option Int}
    (ht : pathStage parts = .ok t) (hs : ordStage q = .ok sfs) (hi : idStage q = .ok sel) :
    decodeCore nl parts q
      = .ok ⟨nl, t.1, t.2.1, t.2.2, sfs, (lookupQ q (lc "red")).map unquote, sel⟩ := by
  unfold decodeCore
  rw [ht, okBind, hs, okBind, hi, okBind]

theorem decodeCore_err_path {nl e : List Char} {parts : List (List Char)}
    {q : List (List Char × List Char)} (ht : pathStage parts = .error e) :
    decodeCore nl parts q = .error e := by
  unfold decodeCore
  rw [ht, errBind]

theorem decodeCore_err_ord {nl e : List Char} {parts : List (List Char)}
    {q : List (List Char × List Char)}
    {t : Option (List Char) × Option Int × Option (List Char)}
    (ht : pathStage parts = .ok t) (hs : ordStage q = .error e) :
    decodeCore nl parts q = .error e := by
  unfold decodeCore
  rw [ht, okBind, hs, errBind]

theorem decodeCore_err_id {nl e : List Char} {parts : List (List Char)}
    {q : List (List Char × List Char)}
    {t : Option (List Char) × Option Int × Option (List Char)} {sfs : List SortField}
    (ht : pathStage parts = .ok t) (hs : ordStage q = .ok sfs) (hi : idStage q = .error e) :
    decodeCore nl parts q = .error e := by
  unfold decodeCore
  rw [ht, okBind, hs, okBind, hi, errBind]

theorem decodeCore_ok_inv {nl : List Char} {parts : List (List Char)}
    {q : List (List Char × List Char)} {r : ParsedURL}
    (h : decodeCore nl parts q = .ok r) :
    ∃ t sfs sel, pathStage parts = .ok t ∧ ordStage q = .ok sfs ∧ idStage q = .ok sel
      ∧ r = ⟨nl, t.1, t.2.1, t.2.2, sfs, (lookupQ q (lc "red")).map unquote, sel⟩ := by
  rcases ht : pathStage parts with e | t
  · rw [decodeCore_err_path ht] at h; exact absurd h (by simp)
  · rcases hs : ordStage q with e | sfs
    · rw [decodeCore_err_ord ht hs] at h; exact absurd h (by simp)
    · rcases hi : idStage q with e | sel
      · rw [decodeCore_err_id ht hs hi] at h; exact absurd h (by simp)
      · rw [decodeCore_ok ht hs hi] at h
        simp only [Except.ok.injEq] at h
        exact ⟨t, sfs, sel, rfl, rfl, rfl, h.symm⟩

/-- `parse_tsqlapp_url` unfolded to its pipeline. -/
theorem parse_url_eq (u : List Char) :
    parse_tsqlapp_url u = decodeCore (urlparsePy u).netloc (pathParts u) (queryPairs u) := rfl

/-! ## Claim C6 -/

/-- C6: every `ParsedURL` the decoder produces has `parentId` and `childCard`
either both set or both unset: a path of exactly three non-empty segments
sets both (with `card` the first segment), every other path length leaves
both unset with `card` the first segment when one exists; and a two-segment
path decodes without error (second segment silently dropped) when the query
is empty. -/
theorem C6_parent_child_linkage (u : List Char) :
    (∀ r, parse_tsqlapp_url u = .ok r →
      (r.parent_id.isSome ↔ r.child_card.isSome)
      ∧ (∀ a m b, pathParts u = [a, m, b] →
          r.card = some a ∧ r.parent_id.isSome ∧ r.child_card = some b)
      ∧ ((pathParts u).length ≠ 3 →
          r.card = (pathParts u).head? ∧ r.parent_id = none ∧ r.child_card = none))
    ∧ (∀ a b, pathParts u = [a, b] → queryPairs u = [] →
        parse_tsqlapp_url u
          = .ok ⟨(urlparsePy u).netloc, some a, none, none, [], none, none⟩) := by
  constructor
  · intro r h
    rw [parse_url_eq] at h
    obtain ⟨t, sfs, sel, ht, hs, hi, rfl⟩ := decodeCore_ok_inv h
    rcases pathStage_ok_inv ht with ⟨a, m, c, n, hp, hm, rfl⟩ | ⟨hlen, rfl⟩
    · refine ⟨by simp, ?_, ?_⟩
      · intro a' m' b' hp'
        rw [hp] at hp'
        simp only [List.cons.injEq, and_true] at hp'
        obtain ⟨rfl, rfl, rfl, -⟩ := hp'
        simp
      · intro hlen
        rw [hp] at hlen
        simp at hlen
    · refine ⟨by simp, ?_, ?_⟩
      · intro a' m' b' hp'
        rw [hp'] at hlen
        simp at hlen
      · intro _
        simp
  · intro a b hp hq
    rw [parse_url_eq, hp, hq,
      decodeCore_ok (pathStage_other [a, b] (by simp)) (ordStage_none [] rfl)
        (idStage_none [] rfl)]
    rfl

theorem C6_witness :
    parse_tsqlapp_url (lc "https://host/aa/77")
      = .ok ⟨lc "host", some (lc "aa"), none, none, [], none, none⟩ :=
  (C6_parent_child_linkage (lc "https://host/aa/77")).2 (lc "aa") (lc "77") (by rfl) (by rfl)

/-! ## Claim C7 -/

/-- C7: for every URL whose path has exactly three non-empty segments with a
strictly numeric middle segment, any successful decode yields `card` the
first segment, `parentId` the middle segment's numeric value and `childCard`
the third segment; and with no query parameters the decode does succeed with
exactly that result. -/
theorem C7_three_segment_path (u : List Char) (a m b : List Char)
    (hp : pathParts u = [a, m, b]) (hm : strictNumeric m = true) :
    (∀ r, parse_tsqlapp_url u = .ok r →
      r.card = some a ∧ r.parent_id = some ((digitsVal m : Int)) ∧ r.child_card = some b)
    ∧ (queryPairs u = [] →
      parse_tsqlapp_url u
        = .ok ⟨(urlparsePy u).netloc, some a, some ((digitsVal m : Int)), some b,
               [], none, none⟩) := by
  rw [strictNumeric, Bool.and_eq_true] at hm
  obtain ⟨hm1, hm2⟩ := hm
  have hmne : m ≠ [] := by simpa using hm1
  have hmInt : pyInt m = some ((digitsVal m : Int)) :=
    pyInt_digits hmne (fun c hc => List.all_eq_true.mp hm2 c hc)
  constructor
  · intro r h
    rw [parse_url_eq] at h
    obtain ⟨t, sfs, sel, ht, hs, hi, rfl⟩ := decodeCore_ok_inv h
    rw [hp, pathStage_three hmInt] at ht
    simp only [Except.ok.injEq] at ht
    rw [← ht]
    simp
  · intro hq
    rw [parse_url_eq, hp, hq,
      decodeCore_ok (pathStage_three hmInt) (ordStage_none [] rfl) (idStage_none [] rfl)]
    rfl

theorem C7_witness :
    parse_tsqlapp_url (lc "https://host/a/123/b")
      = .ok ⟨lc "host", some (lc "a"), some 123, some (lc "b"), [], none, none⟩ :=
  (C7_three_segment_path (lc "https://host/a/123/b") (lc "a") (lc "123") (lc "b")
    (by rfl) (by decide)).2 (by rfl)

/-! ## Claim C8 -/

/-- C8: a URL with exactly one non-empty path segment and no query
parameters decodes to `card` that segment, every optional field unset and an
empty (non-null) `sortFields`. -/
theorem C8_single_segment (u : List Char) (c : List Char)
    (hp : pathParts u = [c]) (hq : queryPairs u = []) :
    parse_tsqlapp_url u = .ok ⟨(urlparsePy u).netloc, some c, none, none, [], none, none⟩ := by
  rw [parse_url_eq, hp, hq,
    decodeCore_ok (pathStage_other [c] (by simp)) (ordStage_none [] rfl)
      (idStage_none [] rfl)]
  rfl

theorem C8_witness :
    parse_tsqlapp_url (lc "https://host/mycard")
      = .ok ⟨lc "host", some (lc "mycard"), none, none, [], none, none⟩ :=
  C8_single_segment (lc "https://host/mycard") (lc "mycard") (by rfl) (by rfl)

/-! ## Claim C4 -/

/-- C4 (as amended): whenever the first `id` value is rejected by Python's
integer parsing (which, beyond strictly numeric strings, also accepts
optional surrounding whitespace, an optional sign and underscore digit
separators), the whole decode fails — no `ParsedURL` is returned — and when
the earlier path and `ord` stages find nothing to reject, the error carries
exactly the offending token.  Likewise a non-parsing `parentId` segment of a
three-segment path aborts the decode, carrying that segment as the error
token, and a rejected `ord` token aborts the decode, carrying the offending
token when the path stage found nothing to reject. -/
theorem C4_nonparsing_id_aborts :
    (∀ u v, idValue u = some v → pyInt v = none →
      (parse_tsqlapp_url u).isOk = false
      ∧ (pathOkB u = true → ordOkB u = true → parse_tsqlapp_url u = .error v))
    ∧ (∀ u a m b, pathParts u = [a, m, b] → pyInt m = none →
        parse_tsqlapp_url u = .error m)
    ∧ (∀ u v e, ordValue u = some v →
        (splitOnChar ',' v).mapM parseOrdToken = .error e →
        (parse_tsqlapp_url u).isOk = false
        ∧ (pathOkB u = true → parse_tsqlapp_url u = .error e)) := by
  refine ⟨?_, ?_, ?_⟩
  · intro u v hid hbad
    have hid' : lookupQ (queryPairs u) (lc "id") = some v := hid
    constructor
    · rw [parse_url_eq]
      rcases ht : pathStage (pathParts u) with e | t
      · rw [decodeCore_err_path ht]; rfl
      · rcases hs : ordStage (queryPairs u) with e | sfs
        · rw [decodeCore_err_ord ht hs]; rfl
        · rw [decodeCore_err_id ht hs (idStage_some_err hid' hbad)]; rfl
    · intro hpath hord
      rw [pathOkB] at hpath
      rw [ordOkB] at hord
      rw [parse_url_eq]
      rcases ht : pathStage (pathParts u) with e | t
      · rw [ht] at hpath; simp [Except.isOk, Except.toBool] at hpath
      · rcases hs : ordStage (queryPairs u) with e | sfs
        · rw [hs] at hord; simp [Except.isOk, Except.toBool] at hord
        · exact decodeCore_err_id ht hs (idStage_some_err hid' hbad)
  · intro u a m b hp hbad
    rw [parse_url_eq]
    exact decodeCore_err_path (by rw [hp]; exact pathStage_three_err hbad)
  · intro u v e hv hbad
    have hv' : lookupQ (queryPairs u) (lc "ord") = some v := hv
    have hs : ordStage (queryPairs u) = .error e := by
      rw [ordStage_some hv', hbad]
    constructor
    · rw [parse_url_eq]
      rcases ht : pathStage (pathParts u) with e2 | t
      · rw [decodeCore_err_path ht]; rfl
      · rw [decodeCore_err_ord ht hs]; rfl
    · intro hpath
      rw [pathOkB] at hpath
      rw [parse_url_eq]
      rcases ht : pathStage (pathParts u) with e2 | t
      · rw [ht] at hpath; simp [Except.isOk, Except.toBool] at hpath
      · exact decodeCore_err_ord ht hs

theorem C4_witness :
    parse_tsqlapp_url (lc "https://host/card?id=abc") = .error (lc "abc")
    ∧ parse_tsqlapp_url (lc "https://host/a/xx/b") = .error (lc "xx")
    ∧ parse_tsqlapp_url (lc "https://host/card?ord=3,zz") = .error (lc "zz") :=
  ⟨(C4_nonparsing_id_aborts.1 (lc "https://host/card?id=abc") (lc "abc") rfl rfl).2 rfl rfl,
   C4_nonparsing_id_aborts.2.1 (lc "https://host/a/xx/b") (lc "a") (lc "xx") (lc "b") rfl rfl,
   (C4_nonparsing_id_aborts.2.2 (lc "https://host/card?ord=3,zz") (lc "3,zz") (lc "zz")
     rfl rfl).2 rfl⟩

/-- C4 counterexample: the token `-5` is not a strictly numeric string, yet
the decode succeeds (Python `int` accepts a sign), contradicting the claim
that every non-strictly-numeric `id` makes the decode fail. -/
theorem C4_counterexample :
    parse_tsqlapp_url (lc "https://host/card?id=-5")
      = .ok ⟨lc "host", some (lc "card"), none, none, [], none, some (-5)⟩
    ∧ strictNumeric (lc "-5") = false :=
  ⟨rfl, rfl⟩

/-! ## Claim C5 -/

/-- C5 (as amended): when the `ord` parameter is present, the decoder takes
its first occurrence, splits it on commas, and parses each token — first
stripped of surrounding whitespace — by the `d`-suffix rule (strip the
trailing `d` and parse the rest as a DESC field id, else parse the whole
stripped token as an ASC field id), preserving token order; any successful
decode's `sortFields` is exactly the result. -/
theorem C5_ord_token_rule (u v : List Char) (r : ParsedURL)
    (hv : ordValue u = some v) (hr : parse_tsqlapp_url u = .ok r) :
    (splitOnChar ',' v).mapM specOrdToken = .ok r.sort_fields := by
  have hv' : lookupQ (queryPairs u) (lc "ord") = some v := hv
  rw [parse_url_eq] at hr
  obtain ⟨t, sfs, sel, ht, hs, hi, rfl⟩ := decodeCore_ok_inv hr
  rw [ordStage_some hv'] at hs
  rw [show specOrdToken = parseOrdToken from rfl]
  exact hs

theorem C5_witness :
    ordValue (lc "https://host/c?ord=10,20d,30") = some (lc "10,20d,30")
    ∧ (splitOnChar ',' (lc "10,20d,30")).mapM specOrdToken
        = .ok [⟨10, Direction.ASC⟩, ⟨20, Direction.DESC⟩, ⟨30, Direction.ASC⟩] :=
  ⟨rfl,
   C5_ord_token_rule (lc "https://host/c?ord=10,20d,30") (lc "10,20d,30")
     ⟨lc "host", some (lc "c"), none, none,
      [⟨10, Direction.ASC⟩, ⟨20, Direction.DESC⟩, ⟨30, Direction.ASC⟩], none, none⟩
     rfl (by rfl)⟩

/-- C5 counterexample: for `ord=10d+` the (plus-decoded) token is `"10d "`,
which does not end in `d`, so the claim's rule — parse the whole token as the
field id — rejects it; but the code strips whitespace first and decodes the
URL successfully to a DESC sort field. -/
theorem C5_counterexample :
    parse_tsqlapp_url (lc "https://host/c?ord=10d+")
      = .ok ⟨lc "host", some (lc "c"), none, none, [⟨10, Direction.DESC⟩], none, none⟩
    ∧ claimOrdToken (lc "10d ") = .error (lc "10d ") :=
  ⟨rfl, rfl⟩

/-! ## List splitting lemmas (towards the round-trip claim C1) -/

theorem takeWhile_append_stop {p : Char → Bool} {a : List Char} {b0 : Char} {b : List Char}
    (ha : ∀ c ∈ a, p c = true) (hb : p b0 = false) :
    (a ++ b0 :: b).takeWhile p = a := by
  induction a with
  | nil => simp [List.takeWhile_cons, hb]
  | cons x xs ih =>
    simp only [List.cons_append, List.takeWhile_cons, ha x (by simp), if_true]
    rw [ih (fun c hc => ha c (by simp [hc]))]

theorem dropWhile_append_stop {p : Char → Bool} {a : List Char} {b0 : Char} {b : List Char}
    (ha : ∀ c ∈ a, p c = true) (hb : p b0 = false) :
    (a ++ b0 :: b).dropWhile p = b0 :: b := by
  induction a with
  | nil => simp [List.dropWhile_cons, hb]
  | cons x xs ih =>
    simp only [List.cons_append, List.dropWhile_cons, ha x (by simp), if_true]
    exact ih (fun c hc => ha c (by simp [hc]))

theorem splitFirst_of_not_mem {sep : Char} {l : List Char} (h : sep ∉ l) :
    splitFirst sep l = none := by
  induction l with
  | nil => rfl
  | cons c rest ih =>
    have hc : ¬ c = sep := fun e => h (by simp [e])
    simp [splitFirst, hc, ih (fun hm => h (by simp [hm]))]

theorem splitFirst_append {sep : Char} {a b : List Char} (h : sep ∉ a) :
    splitFirst sep (a ++ sep :: b) = some (a, b) := by
  induction a with
  | nil => simp [splitFirst]
  | cons x xs ih =>
    have hx : ¬ x = sep := fun e => h (by simp [e])
    simp [splitFirst, hx, ih (fun hm => h (by simp [hm]))]

theorem splitOnChar_of_not_mem {sep : Char} {l : List Char} (h : sep ∉ l) :
    splitOnChar sep l = [l] := by
  induction l with
  | nil => rfl
  | cons c rest ih =>
    have hc : ¬ c = sep := fun e => h (by simp [e])
    simp [splitOnChar, hc, ih (fun hm => h (by simp [hm]))]

theorem splitOnChar_append {sep : Char} {a b : List Char} (h : sep ∉ a) :
    splitOnChar sep (a ++ sep :: b) = a :: splitOnChar sep b := by
  induction a with
  | nil => simp [splitOnChar]
  | cons x xs ih =>
    have hx : ¬ x = sep := fun e => h (by simp [e])
    rw [List.cons_append, splitOnChar, if_neg hx, ih (fun hm => h (by simp [hm]))]

theorem splitOnChar_joinSep {sep : Char} {ts : List (List Char)} (hne : ts ≠ [])
    (h : ∀ t ∈ ts, sep ∉ t) :
    splitOnChar sep (joinSep sep ts) = ts := by
  induction ts with
  | nil => exact absurd rfl hne
  | cons t rest ih =>
    cases rest with
    | nil => simp [joinSep, splitOnChar_of_not_mem (h t (by simp))]
    | cons t2 r2 =>
      rw [show joinSep sep (t :: t2 :: r2) = t ++ sep :: joinSep sep (t2 :: r2) from rfl,
        splitOnChar_append (h t (by simp)),
        ih (by simp) (fun t' ht' => h t' (by simp [ht']))]

theorem mem_joinSep {sep : Char} {ts : List (List Char)} {c : Char}
    (hc : c ∈ joinSep sep ts) : c = sep ∨ ∃ t ∈ ts, c ∈ t := by
  induction ts with
  | nil => simp [joinSep] at hc
  | cons t rest ih =>
    cases rest with
    | nil => exact Or.inr ⟨t, by simp, by simpa [joinSep] using hc⟩
    | cons t2 r2 =>
      rw [show joinSep sep (t :: t2 :: r2) = t ++ sep :: joinSep sep (t2 :: r2) from rfl] at hc
      rcases List.mem_append.mp hc with h1 | h2
      · exact Or.inr ⟨t, by simp, h1⟩
      · rcases List.mem_cons.mp h2 with rfl | h3
        · exact Or.inl rfl
        · rcases ih h3 with h4 | ⟨t', ht', hc'⟩
          · exact Or.inl h4
          · exact Or.inr ⟨t', by simp [ht'], hc'⟩

/-! ## Percent-encoding round trip -/

theorem unquote_of_no_percent {l : List Char} (h : '%' ∉ l) : unquote l = l := by
  induction l with
  | nil => rfl
  | cons c rest ih =>
    have hc : ¬ c = '%' := fun e => h (by simp [e])
    simp [unquote, hc, ih (fun hm => h (by simp [hm]))]

theorem map_plus_eq_self {l : List Char} (h : '+' ∉ l) :
    l.map (fun c => if c = '+' then ' ' else c) = l := by
  induction l with
  | nil => rfl
  | cons c rest ih =>
    have hc : ¬ c = '+' := fun e => h (by simp [e])
    simp [hc, ih (fun hm => h (by simp [hm]))]

theorem unquotePlus_eq_self {l : List Char} (hp : '%' ∉ l) (hpl : '+' ∉ l) :
    unquotePlus l = l := by
  rw [unquotePlus, map_plus_eq_self hpl, unquote_of_no_percent hp]

theorem hexVal?_hexDigitU {n : Nat} (h : n < 16) : hexVal? (hexDigitU n) = some n := by
  interval_cases n <;> decide

theorem ne_of_class {P : Char → Bool} {c y : Char} (hc : P c = true) (hy : P y = false) :
    c ≠ y := by
  rintro rfl
  rw [hc] at hy
  cases hy

theorem unquote_quoteStr {f : List Char} (h : ∀ c ∈ f, c.toNat < 128) :
    unquote (quoteStr f) = f := by
  induction f with
  | nil => rfl
  | cons c rest ih =>
    have hc128 := h c (by simp)
    have ihr := ih (fun x hx => h x (by simp [hx]))
    rw [show quoteStr (c :: rest) = quoteChar c ++ quoteStr rest from rfl]
    by_cases hu : unreservedChar c = true
    · rw [quoteChar, if_pos hu, List.cons_append, List.nil_append]
      have hcp : ¬ c = '%' := ne_of_class hu (by decide)
      simp [unquote, hcp, ihr]
    · rw [quoteChar, if_neg hu]
      have hdiv : c.toNat / 16 < 16 := by omega
      have hmod : c.toNat % 16 < 16 := by omega
      simp only [List.cons_append, List.nil_append, unquote,
        hexVal?_hexDigitU hdiv, hexVal?_hexDigitU hmod]
      rw [show 16 * (c.toNat / 16) + c.toNat % 16 = c.toNat from by omega,
        Char.ofNat_toNat]
      show c :: unquote (quoteStr rest) = c :: rest
      rw [ihr]

/-! ## Character-class facts for the built URL's regions -/

theorem safeName_facts {c : Char} (h : safeNameChar c = true) :
    urlOkChar c = true ∧ netlocChar c = true ∧ c ≠ '/' ∧ c ≠ '?' ∧ c ≠ '#'
    ∧ c ≠ ';' ∧ c ≠ '&' ∧ c ≠ '=' ∧ c ≠ '%' ∧ c ≠ '+' := by
  refine ⟨?_, ?_, ne_of_class h (by decide), ne_of_class h (by decide),
    ne_of_class h (by decide), ne_of_class h (by decide), ne_of_class h (by decide),
    ne_of_class h (by decide), ne_of_class h (by decide), ne_of_class h (by decide)⟩
  · simp only [urlOkChar, Bool.not_eq_true']
    simp [ne_of_class h (show safeNameChar '\t' = false by decide),
      ne_of_class h (show safeNameChar '\r' = false by decide),
      ne_of_class h (show safeNameChar '\n' = false by decide)]
  · simp only [netlocChar, Bool.not_eq_true']
    simp [ne_of_class h (show safeNameChar '/' = false by decide),
      ne_of_class h (show safeNameChar '?' = false by decide),
      ne_of_class h (show safeNameChar '#' = false by decide)]

theorem token_facts {c : Char} (h : tokenChar c = true) :
    urlOkChar c = true ∧ c ≠ '/' ∧ c ≠ '?' ∧ c ≠ '#' ∧ c ≠ ';' ∧ c ≠ '&'
    ∧ c ≠ '=' ∧ c ≠ '%' ∧ c ≠ '+' := by
  refine ⟨?_, ne_of_class h (by decide), ne_of_class h (by decide),
    ne_of_class h (by decide), ne_of_class h (by decide), ne_of_class h (by decide),
    ne_of_class h (by decide), ne_of_class h (by decide), ne_of_class h (by decide)⟩
  simp only [urlOkChar, Bool.not_eq_true']
  simp [ne_of_class h (show tokenChar '\t' = false by decide),
    ne_of_class h (show tokenChar '\r' = false by decide),
    ne_of_class h (show tokenChar '\n' = false by decide)]

theorem qsafe_facts {c : Char} (h : qsafeChar c = true) :
    urlOkChar c = true ∧ c ≠ '/' ∧ c ≠ '?' ∧ c ≠ '#' ∧ c ≠ ';' ∧ c ≠ '&'
    ∧ c ≠ '=' ∧ c ≠ '+' := by
  refine ⟨?_, ne_of_class h (by decide), ne_of_class h (by decide),
    ne_of_class h (by decide), ne_of_class h (by decide), ne_of_class h (by decide),
    ne_of_class h (by decide), ne_of_class h (by decide)⟩
  simp only [urlOkChar, Bool.not_eq_true']
  simp [ne_of_class h (show qsafeChar '\t' = false by decide),
    ne_of_class h (show qsafeChar '\r' = false by decide),
    ne_of_class h (show qsafeChar '\n' = false by decide)]

theorem intToStr_chars {i : Int} {c : Char} (hc : c ∈ intToStr i) :
    c.isDigit = true ∨ c = '-' := by
  rw [intToStr] at hc
  by_cases h : i < 0
  · rw [if_pos h] at hc
    rcases List.mem_cons.mp hc with rfl | hm
    · exact Or.inr rfl
    · exact Or.inl (natToStr_digits _ c hm)
  · rw [if_neg h] at hc
    exact Or.inl (natToStr_digits _ c hc)

theorem intToStr_tokenChar {i : Int} : ∀ c ∈ intToStr i, tokenChar c = true := by
  intro c hc
  rcases intToStr_chars hc with hd | rfl
  · simp [tokenChar, hd]
  · decide

theorem intToStr_ne_nil (i : Int) : intToStr i ≠ [] := by
  rw [intToStr]
  by_cases h : i < 0
  · rw [if_pos h]; simp
  · rw [if_neg h]; exact natToStr_ne_nil _

theorem ordTokenOf_tokenChar {sf : SortField} : ∀ c ∈ ordTokenOf sf, tokenChar c = true := by
  intro c hc
  rw [ordTokenOf] at hc
  rcases List.mem_append.mp hc with hm | hm
  · exact intToStr_tokenChar c hm
  · cases hd : sf.direction <;> rw [hd] at hm <;> simp at hm
    rw [hm]; decide

theorem ordJoin_tokenChar {sfs : List SortField} :
    ∀ c ∈ joinSep ',' (sfs.map ordTokenOf), tokenChar c = true := by
  intro c hc
  rcases mem_joinSep hc with rfl | ⟨t, ht, hct⟩
  · decide
  · rcases List.mem_map.mp ht with ⟨sf, _, rfl⟩
    exact ordTokenOf_tokenChar c hct

theorem quoteStr_qsafe {f : List Char} (h : ∀ c ∈ f, c.toNat < 128) :
    ∀ c ∈ quoteStr f, qsafeChar c = true := by
  intro c hc
  rw [quoteStr] at hc
  rcases List.mem_flatMap.mp hc with ⟨x, hx, hcx⟩
  rw [quoteChar] at hcx
  by_cases hu : unreservedChar x = true
  · rw [if_pos hu] at hcx
    rcases List.mem_singleton.mp hcx with rfl
    simp [qsafeChar, hu]
  · rw [if_neg hu] at hcx
    have h128 := h x hx
    have hdiv : x.toNat / 16 < 16 := by omega
    have hmod : x.toNat % 16 < 16 := by omega
    have hhex : ∀ {n : Nat}, n < 16 → qsafeChar (hexDigitU n) = true := by
      intro n hn
      interval_cases n <;> decide
    rcases List.mem_cons.mp hcx with rfl | hm
    · decide
    · rcases List.mem_cons.mp hm with rfl | hm2
      · exact hhex hdiv
      · rcases List.mem_singleton.mp hm2 with rfl
        exact hhex hmod

/-! ## The `ord` tokens decode back -/

theorem intToStr_not_ws {i : Int} : ∀ c ∈ intToStr i, isPyWS c = false := by
  intro c hc
  rcases intToStr_chars hc with hd | rfl
  · exact isDigit_not_ws hd
  · decide

theorem natToStr_getLast (n : Nat) :
    ∃ d, (natToStr n).getLast? = some d ∧ d.isDigit = true := by
  rw [natToStr]
  by_cases h : n = 0
  · rw [if_pos h]
    exact ⟨'0', rfl, by decide⟩
  · rw [if_neg h, natToStrAux_concat h]
    exact ⟨_, List.getLast?_concat _, digit_isDigit (Nat.mod_lt n (by norm_num))⟩

theorem getLast?_cons_of_ne_nil {c : Char} {l : List Char} (h : l ≠ []) :
    (c :: l).getLast? = l.getLast? := by
  cases l with
  | nil => exact absurd rfl h
  | cons x xs => exact List.getLast?_cons_cons

theorem intToStr_getLast (i : Int) :
    ∃ d, (intToStr i).getLast? = some d ∧ d.isDigit = true := by
  rw [intToStr]
  by_cases h : i < 0
  · rw [if_pos h, getLast?_cons_of_ne_nil (natToStr_ne_nil _)]
    exact natToStr_getLast _
  · rw [if_neg h]
    exact natToStr_getLast _

theorem parseOrdToken_build (sf : SortField) : parseOrdToken (ordTokenOf sf) = .ok sf := by
  obtain ⟨sfI, sfD⟩ := sf
  cases sfD
  · have he : ordTokenOf ⟨sfI, Direction.ASC⟩ = intToStr sfI := by
      simp [ordTokenOf]
    have hstrip : stripWS (intToStr sfI) = intToStr sfI :=
      stripWS_of_all intToStr_not_ws
    rw [he]
    simp only [parseOrdToken, hstrip]
    obtain ⟨d, hd, hdig⟩ := intToStr_getLast sfI
    rw [if_neg (by
        rw [hd]
        intro h
        injection h with h2
        exact (isDigit_ne_chars hdig).2.2.2.1 h2),
      pyInt_intToStr]
  · have he : ordTokenOf ⟨sfI, Direction.DESC⟩ = intToStr sfI ++ ['d'] := by
      simp [ordTokenOf]
    have hstrip : stripWS (intToStr sfI ++ ['d']) = intToStr sfI ++ ['d'] := by
      apply stripWS_of_all
      intro c hc
      rcases List.mem_append.mp hc with hm | hm
      · exact intToStr_not_ws c hm
      · rcases List.mem_singleton.mp hm with rfl
        decide
    rw [he]
    simp only [parseOrdToken, hstrip]
    rw [if_pos (List.getLast?_concat _), List.dropLast_concat, pyInt_intToStr]

theorem mapM_ordTokens (sfs : List SortField) :
    ((sfs.map ordTokenOf).mapM parseOrdToken) = .ok sfs := by
  induction sfs with
  | nil => rfl
  | cons sf rest ih =>
    rw [List.map_cons, List.mapM_cons, parseOrdToken_build, ih]
    rfl

/-! ## `urlparse` on a built URL -/

theorem removeUnsafe_eq_self {u : List Char} (h : ∀ c ∈ u, urlOkChar c = true) :
    removeUnsafe u = u :=
  List.filter_eq_self.mpr (fun a ha => by exact h a ha)

theorem splitScheme_https (rest : List Char) :
    splitScheme ('h' :: 't' :: 't' :: 'p' :: 's' :: ':' :: rest) = (lc "https", rest) :=
  rfl

theorem splitNetloc_slashes (rest : List Char) :
    splitNetloc ('/' :: '/' :: rest) = (rest.takeWhile netlocChar, rest.dropWhile netlocChar) :=
  rfl

theorem splitFragment_of_no_hash {u : List Char} (h : '#' ∉ u) :
    splitFragment u = (u, []) := by
  rw [splitFragment, splitFirst_of_not_mem h]

theorem splitQuery_of_no_qm {u : List Char} (h : '?' ∉ u) :
    splitQuery u = (u, []) := by
  rw [splitQuery, splitFirst_of_not_mem h]

theorem splitQuery_append {a b : List Char} (h : '?' ∉ a) :
    splitQuery (a ++ '?' :: b) = (a, b) := by
  rw [splitQuery, splitFirst_append h]

/-- `urlsplit` of a built URL `https://dom/pb⟨qt⟩` with a URL-safe domain, a
path with no `?`/`#`/unsafe byte, and a query tail that is either empty or
`?`-prefixed with no `#`/unsafe byte. -/
theorem urlsplitPy_build {dom pb qt : List Char}
    (hdom : ∀ c ∈ dom, safeNameChar c = true)
    (hpb : ∀ c ∈ pb, urlOkChar c = true ∧ c ≠ '?' ∧ c ≠ '#')
    (hqt : ∀ c ∈ qt, urlOkChar c = true ∧ c ≠ '#')
    (hshape : qt = [] ∨ ∃ qs, qt = '?' :: qs) :
    urlsplitPy (lc "https://" ++ dom ++ '/' :: (pb ++ qt))
      = ⟨lc "https", dom, '/' :: pb, qt.tail, []⟩ := by
  have hU : lc "https://" ++ dom ++ '/' :: (pb ++ qt)
      = 'h' :: 't' :: 't' :: 'p' :: 's' :: ':' :: '/' :: '/' :: (dom ++ '/' :: (pb ++ qt)) :=
    rfl
  have hqtOk : ∀ c ∈ qt, urlOkChar c = true := by
    intro c hc
    rcases hshape with rfl | ⟨qs, rfl⟩
    · simp at hc
    · rcases List.mem_cons.mp hc with rfl | hm
      · decide
      · exact (hqt c (by simp [hm])).1
  have hmem : ∀ c ∈ 'h' :: 't' :: 't' :: 'p' :: 's' :: ':' :: '/' :: '/'
      :: (dom ++ '/' :: (pb ++ qt)), urlOkChar c = true := by
    intro c hc
    simp only [List.mem_cons, List.mem_append] at hc
    rcases hc with rfl | rfl | rfl | rfl | rfl | rfl | rfl | rfl | hd | rfl | hm1 | hm2
    · decide
    · decide
    · decide
    · decide
    · decide
    · decide
    · decide
    · decide
    · exact (safeName_facts (hdom c hd)).1
    · decide
    · exact (hpb c hm1).1
    · exact hqtOk c hm2
  have hnet1 : (dom ++ '/' :: (pb ++ qt)).takeWhile netlocChar = dom :=
    takeWhile_append_stop (fun c hc => (safeName_facts (hdom c hc)).2.1) (by decide)
  have hnet2 : (dom ++ '/' :: (pb ++ qt)).dropWhile netlocChar = '/' :: (pb ++ qt) :=
    dropWhile_append_stop (fun c hc => (safeName_facts (hdom c hc)).2.1) (by decide)
  have hnohash : '#' ∉ '/' :: (pb ++ qt) := by
    intro hm
    rcases List.mem_cons.mp hm with he | hm2
    · exact absurd he.symm (by decide)
    · rcases List.mem_append.mp hm2 with hm3 | hm4
      · exact (hpb _ hm3).2.2 rfl
      · exact (hqt _ hm4).2 rfl
  rw [hU, urlsplitPy, removeUnsafe_eq_self hmem, splitScheme_https, splitNetloc_slashes,
    hnet1, hnet2, splitFragment_of_no_hash hnohash]
  have hnoq : '?' ∉ '/' :: pb := by
    intro hm
    rcases List.mem_cons.mp hm with he | hm2
    · exact absurd he.symm (by decide)
    · exact (hpb _ hm2).2.1 rfl
  rcases hshape with rfl | ⟨qs, rfl⟩
  · rw [show ('/' :: (pb ++ ([] : List Char))) = '/' :: pb from by simp,
      splitQuery_of_no_qm hnoq]
    simp
  · rw [show ('/' :: (pb ++ '?' :: qs)) = ('/' :: pb) ++ '?' :: qs from rfl,
      splitQuery_append hnoq]
    simp

/-- `urlparse` adds nothing when the path has no `;`. -/
theorem urlparsePy_build {dom pb qt : List Char}
    (hdom : ∀ c ∈ dom, safeNameChar c = true)
    (hpb : ∀ c ∈ pb, urlOkChar c = true ∧ c ≠ '?' ∧ c ≠ '#')
    (hqt : ∀ c ∈ qt, urlOkChar c = true ∧ c ≠ '#')
    (hshape : qt = [] ∨ ∃ qs, qt = '?' :: qs)
    (hsemi : ';' ∉ pb) :
    urlparsePy (lc "https://" ++ dom ++ '/' :: (pb ++ qt))
      = ⟨lc "https", dom, '/' :: pb, qt.tail, []⟩ := by
  rw [urlparsePy, urlsplitPy_build hdom hpb hqt hshape]
  have hsemi' : ';' ∉ '/' :: pb := by
    intro hm
    rcases List.mem_cons.mp hm with he | hm2
    · exact absurd he.symm (by decide)
    · exact hsemi hm2
  simp [hsemi']

/-! ## `parse_qs` on a built query string -/

theorem parse_qsl_built {items : List (List Char × List Char)} (hne : items ≠ [])
    (hfacts : ∀ it ∈ items, '=' ∉ it.1 ∧ it.2 ≠ [] ∧ '&' ∉ it.1 ∧ '&' ∉ it.2) :
    parse_qsl (joinSep '&' (items.map (fun it => it.1 ++ '=' :: it.2)))
      = items.map (fun it => (unquotePlus it.1, unquotePlus it.2)) := by
  have henc : ∀ it ∈ items, '&' ∉ (it.1 ++ '=' :: it.2) := by
    intro it hit hm
    rcases List.mem_append.mp hm with h1 | h2
    · exact (hfacts it hit).2.2.1 h1
    · rcases List.mem_cons.mp h2 with he | h3
      · exact absurd he (by decide)
      · exact (hfacts it hit).2.2.2 h3
  have hmapne : items.map (fun it => it.1 ++ '=' :: it.2) ≠ [] := by
    simpa using hne
  have hsplit : splitOnChar '&' (joinSep '&' (items.map (fun it => it.1 ++ '=' :: it.2)))
      = items.map (fun it => it.1 ++ '=' :: it.2) :=
    splitOnChar_joinSep hmapne (by
      intro t ht
      rcases List.mem_map.mp ht with ⟨it, hit, rfl⟩
      exact henc it hit)
  rw [parse_qsl, hsplit]
  clear hne henc hmapne hsplit
  induction items with
  | nil => rfl
  | cons it rest ih =>
    have h1 := hfacts it (by simp)
    have hpair : (it.1 ++ '=' :: it.2).isEmpty = false := by
      cases h : it.1 ++ '=' :: it.2
      · exact absurd h (by simp)
      · rfl
    have hval : it.2.isEmpty = false := by
      cases h : it.2
      · exact absurd h h1.2.1
      · rfl
    rw [List.map_cons, List.filterMap_cons]
    rw [show (if (it.1 ++ '=' :: it.2).isEmpty = true then none
        else match splitFirst '=' (it.1 ++ '=' :: it.2) with
          | none => none
          | some nv =>
            if nv.2.isEmpty = true then none
            else some (unquotePlus nv.1, unquotePlus nv.2))
        = some (unquotePlus it.1, unquotePlus it.2) from by
      rw [if_neg (by rw [hpair]; exact Bool.false_ne_true), splitFirst_append h1.1]
      simp [hval]]
    rw [List.map_cons, ih (fun x hx => hfacts x (by simp [hx]))]

theorem unquotePlus_token {l : List Char} (h : ∀ c ∈ l, tokenChar c = true) :
    unquotePlus l = l :=
  unquotePlus_eq_self (fun hm => (token_facts (h _ hm)).2.2.2.2.2.2.2.1 rfl)
    (fun hm => (token_facts (h _ hm)).2.2.2.2.2.2.2.2 rfl)

theorem unquotePlus_quoteStr {f : List Char} (h : ∀ c ∈ f, c.toNat < 128) :
    unquotePlus (quoteStr f) = f := by
  rw [unquotePlus,
    map_plus_eq_self (fun hm => (qsafe_facts (quoteStr_qsafe h _ hm)).2.2.2.2.2.2.2 rfl),
    unquote_quoteStr h]

theorem safeFilterChar_facts {c : Char} (h : safeFilterChar c = true) :
    c.toNat < 128 ∧ c ≠ '%' := by
  rw [safeFilterChar, Bool.and_eq_true] at h
  exact ⟨by simpa using h.1, by simpa using h.2⟩

theorem ordTokenOf_ne_nil (sf : SortField) : ordTokenOf sf ≠ [] := by
  rw [ordTokenOf]
  intro h
  exact intToStr_ne_nil sf.fieldId (List.append_eq_nil.mp h).1

theorem joinSep_cons_ne_nil {sep : Char} {t : List Char} {ts : List (List Char)}
    (ht : t ≠ []) : joinSep sep (t :: ts) ≠ [] := by
  cases ts with
  | nil => exact ht
  | cons t2 r2 =>
    rw [show joinSep sep (t :: t2 :: r2) = t ++ sep :: joinSep sep (t2 :: r2) from rfl]
    intro he
    exact absurd (List.append_eq_nil.mp he).2 (by simp)

theorem comma_not_mem_ordTokenOf (sf : SortField) : ',' ∉ ordTokenOf sf := by
  intro hm
  rw [ordTokenOf] at hm
  rcases List.mem_append.mp hm with h1 | h2
  · rcases intToStr_chars h1 with hd | he
    · exact (isDigit_ne_chars hd).2.2.2.2.1 rfl
    · exact absurd he (by decide)
  · cases hd : sf.direction <;> rw [hd] at h2 <;> simp at h2

theorem quoteStr_ne_nil {f : List Char} (h : f ≠ []) : quoteStr f ≠ [] := by
  cases f with
  | nil => exact absurd rfl h
  | cons c rest =>
    rw [show quoteStr (c :: rest) = quoteChar c ++ quoteStr rest from rfl]
    intro he
    have h1 := (List.append_eq_nil.mp he).1
    rw [quoteChar] at h1
    by_cases hu : unreservedChar c = true
    · rw [if_pos hu] at h1
      exact absurd h1 (by simp)
    · rw [if_neg hu] at h1
      exact absurd h1 (by simp)

theorem item_chars_ord {sfs : List SortField} :
    ∀ c ∈ lc "ord=" ++ joinSep ',' (sfs.map ordTokenOf),
      urlOkChar c = true ∧ c ≠ '#' := by
  intro c hc
  rcases List.mem_append.mp hc with h1 | h2
  · have h1' : c ∈ ['o', 'r', 'd', '='] := h1
    simp at h1'
    rcases h1' with rfl | rfl | rfl | rfl <;> exact ⟨by decide, by decide⟩
  · have ht := ordJoin_tokenChar c h2
    exact ⟨(token_facts ht).1, (token_facts ht).2.2.2.1⟩

theorem item_chars_red {f : List Char} (h128 : ∀ c ∈ f, c.toNat < 128) :
    ∀ c ∈ lc "red=" ++ quoteStr f, urlOkChar c = true ∧ c ≠ '#' := by
  intro c hc
  rcases List.mem_append.mp hc with h1 | h2
  · have h1' : c ∈ ['r', 'e', 'd', '='] := h1
    simp at h1'
    rcases h1' with rfl | rfl | rfl | rfl <;> exact ⟨by decide, by decide⟩
  · have hq := quoteStr_qsafe h128 c h2
    exact ⟨(qsafe_facts hq).1, (qsafe_facts hq).2.2.2.1⟩

theorem item_chars_id {i : Int} :
    ∀ c ∈ lc "id=" ++ intToStr i, urlOkChar c = true ∧ c ≠ '#' := by
  intro c hc
  rcases List.mem_append.mp hc with h1 | h2
  · have h1' : c ∈ ['i', 'd', '='] := h1
    simp at h1'
    rcases h1' with rfl | rfl | rfl <;> exact ⟨by decide, by decide⟩
  · have ht := intToStr_tokenChar c h2
    exact ⟨(token_facts ht).1, (token_facts ht).2.2.2.1⟩

theorem ord_value_splits (sf0 : SortField) (srest : List SortField) :
    ((splitOnChar ',' (joinSep ',' ((sf0 :: srest).map ordTokenOf))).mapM parseOrdToken)
      = .ok (sf0 :: srest) := by
  rw [splitOnChar_joinSep (by simp) (by
      intro t ht
      rcases List.mem_map.mp ht with ⟨sf, _, rfl⟩
      exact comma_not_mem_ordTokenOf sf),
    mapM_ordTokens]

theorem mem_buildQuery_facts {p : ParsedURL}
    (hbq : buildQuery p = '?' :: joinSep '&' (buildItems p))
    (hif : ∀ t ∈ buildItems p, ∀ c ∈ t, urlOkChar c = true ∧ c ≠ '#') :
    ∀ c ∈ buildQuery p, urlOkChar c = true ∧ c ≠ '#' := by
  intro c hc
  rw [hbq] at hc
  rcases List.mem_cons.mp hc with rfl | hm
  · exact ⟨by decide, by decide⟩
  · rcases mem_joinSep hm with rfl | ⟨t, ht, hct⟩
    · exact ⟨by decide, by decide⟩
    · exact hif t ht c hct

/-- The query string built for `p` decodes back: its characters are
URL-safe, it is empty or `?`-prefixed, and the three query stages of the
decoder recover `p`'s `sort_fields`, `selected_id` and `filter` exactly. -/
theorem built_query_stages (p : ParsedURL)
    (hfil : ∀ f, p.filter = some f → f ≠ [] ∧ ∀ c ∈ f, safeFilterChar c = true) :
    (∀ c ∈ buildQuery p, urlOkChar c = true ∧ c ≠ '#')
    ∧ (buildQuery p = [] ∨ ∃ qs, buildQuery p = '?' :: qs)
    ∧ ordStage (parse_qsl (buildQuery p).tail) = .ok p.sort_fields
    ∧ idStage (parse_qsl (buildQuery p).tail) = .ok p.selected_id
    ∧ (lookupQ (parse_qsl (buildQuery p).tail) (lc "red")).map unquote = p.filter := by
  have hidfacts : ∀ i : Int, '=' ∉ lc "id" ∧ intToStr i ≠ [] ∧ '&' ∉ lc "id"
      ∧ '&' ∉ intToStr i := fun i =>
    ⟨by decide, intToStr_ne_nil i, by decide,
     fun hm => (token_facts (intToStr_tokenChar _ hm)).2.2.2.2.2.1 rfl⟩
  rcases hsf : p.sort_fields with _ | ⟨sf0, srest⟩
  · rcases hf : p.filter with _ | f
    · rcases hs : p.selected_id with _ | i
      · -- no ord, no red, no id
        have hitems : buildItems p = [] := by rw [buildItems, hsf, hf, hs]; rfl
        have hbq : buildQuery p = [] := by rw [buildQuery, hitems]; rfl
        refine ⟨?_, Or.inl hbq, ?_, ?_, ?_⟩
        · rw [hbq]; intro c hc; simp at hc
        · rw [hbq]; exact ordStage_none _ rfl
        · rw [hbq]; exact idStage_none _ rfl
        · rw [hbq]; rfl
      · -- id only
        have hitems : buildItems p
            = [(lc "id", intToStr i)].map (fun it => it.1 ++ '=' :: it.2) := by
          rw [buildItems, hsf, hf, hs]; rfl
        have hbq : buildQuery p = '?' :: joinSep '&' (buildItems p) := by
          rw [buildQuery, if_neg (by rw [hitems]; simp)]
        have hpairs : parse_qsl (buildQuery p).tail = [(lc "id", intToStr i)] := by
          rw [hbq, List.tail_cons, hitems, parse_qsl_built (by simp) (by
            intro it hit
            simp only [List.mem_singleton] at hit
            subst hit
            exact hidfacts i)]
          show [(unquotePlus (lc "id"), unquotePlus (intToStr i))] = _
          rw [unquotePlus_token intToStr_tokenChar]
          rfl
        refine ⟨mem_buildQuery_facts hbq ?_, Or.inr ⟨_, hbq⟩, ?_, ?_, ?_⟩
        · intro t ht
          rw [hitems] at ht
          rcases List.mem_map.mp ht with ⟨it, hit, rfl⟩
          simp only [List.mem_singleton] at hit
          subst hit
          exact item_chars_id
        · exact ordStage_none _ (by rw [hpairs]; rfl)
        · exact idStage_some_ok (by rw [hpairs]; rfl) (pyInt_intToStr i)
        · rw [hpairs]; rfl
    · obtain ⟨hfne, hfsafe⟩ := hfil f hf
      have h128 : ∀ c ∈ f, c.toNat < 128 := fun c hc => (safeFilterChar_facts (hfsafe c hc)).1
      have hfnp : '%' ∉ f := fun hm => (safeFilterChar_facts (hfsafe _ hm)).2 rfl
      have hredfacts : '=' ∉ lc "red" ∧ quoteStr f ≠ [] ∧ '&' ∉ lc "red" ∧ '&' ∉ quoteStr f :=
        ⟨by decide, quoteStr_ne_nil hfne, by decide,
         fun hm => (qsafe_facts (quoteStr_qsafe h128 _ hm)).2.2.2.2.2.1 rfl⟩
      rcases hs : p.selected_id with _ | i
      · -- red only
        have hitems : buildItems p
            = [(lc "red", quoteStr f)].map (fun it => it.1 ++ '=' :: it.2) := by
          rw [buildItems, hsf, hf, hs]; rfl
        have hbq : buildQuery p = '?' :: joinSep '&' (buildItems p) := by
          rw [buildQuery, if_neg (by rw [hitems]; simp)]
        have hpairs : parse_qsl (buildQuery p).tail = [(lc "red", f)] := by
          rw [hbq, List.tail_cons, hitems, parse_qsl_built (by simp) (by
            intro it hit
            simp only [List.mem_singleton] at hit
            subst hit
            exact hredfacts)]
          show [(unquotePlus (lc "red"), unquotePlus (quoteStr f))] = _
          rw [unquotePlus_quoteStr h128]
          rfl
        refine ⟨mem_buildQuery_facts hbq ?_, Or.inr ⟨_, hbq⟩, ?_, ?_, ?_⟩
        · intro t ht
          rw [hitems] at ht
          rcases List.mem_map.mp ht with ⟨it, hit, rfl⟩
          simp only [List.mem_singleton] at hit
          subst hit
          exact item_chars_red h128
        · exact ordStage_none _ (by rw [hpairs]; rfl)
        · exact idStage_none _ (by rw [hpairs]; rfl)
        · rw [hpairs]
          show some (unquote f) = some f
          rw [unquote_of_no_percent hfnp]
      · -- red and id
        have hitems : buildItems p
            = [(lc "red", quoteStr f), (lc "id", intToStr i)].map
                (fun it => it.1 ++ '=' :: it.2) := by
          rw [buildItems, hsf, hf, hs]; rfl
        have hbq : buildQuery p = '?' :: joinSep '&' (buildItems p) := by
          rw [buildQuery, if_neg (by rw [hitems]; simp)]
        have hpairs : parse_qsl (buildQuery p).tail
            = [(lc "red", f), (lc "id", intToStr i)] := by
          rw [hbq, List.tail_cons, hitems, parse_qsl_built (by simp) (by
            intro it hit
            simp only [List.mem_cons, List.not_mem_nil, or_false] at hit
            rcases hit with rfl | rfl
            · exact hredfacts
            · exact hidfacts i)]
          show [(unquotePlus (lc "red"), unquotePlus (quoteStr f)),
            (unquotePlus (lc "id"), unquotePlus (intToStr i))] = _
          rw [unquotePlus_quoteStr h128, unquotePlus_token intToStr_tokenChar]
          rfl
        refine ⟨mem_buildQuery_facts hbq ?_, Or.inr ⟨_, hbq⟩, ?_, ?_, ?_⟩
        · intro t ht
          rw [hitems] at ht
          rcases List.mem_map.mp ht with ⟨it, hit, rfl⟩
          simp only [List.mem_cons, List.not_mem_nil, or_false] at hit
          rcases hit with rfl | rfl
          · exact item_chars_red h128
          · exact item_chars_id
        · exact ordStage_none _ (by rw [hpairs]; rfl)
        · exact idStage_some_ok (by rw [hpairs]; rfl) (pyInt_intToStr i)
        · rw [hpairs]
          show some (unquote f) = some f
          rw [unquote_of_no_percent hfnp]
  · -- at least one sort field: generalize the ord value
    obtain ⟨V, hV⟩ : ∃ V, joinSep ',' ((sf0 :: srest).map ordTokenOf) = V := ⟨_, rfl⟩
    have hVtoken : ∀ c ∈ V, tokenChar c = true := by
      rw [← hV]; exact ordJoin_tokenChar
    have hVne : V ≠ [] := by
      rw [← hV, List.map_cons]; exact joinSep_cons_ne_nil (ordTokenOf_ne_nil sf0)
    have hVsplit : ((splitOnChar ',' V).mapM parseOrdToken) = .ok (sf0 :: srest) := by
      rw [← hV]; exact ord_value_splits sf0 srest
    have hVitem : ∀ c ∈ lc "ord=" ++ V, urlOkChar c = true ∧ c ≠ '#' := by
      rw [← hV]; exact item_chars_ord
    have hordfacts : '=' ∉ lc "ord" ∧ V ≠ [] ∧ '&' ∉ lc "ord" ∧ '&' ∉ V :=
      ⟨by decide, hVne, by decide, fun hm => (token_facts (hVtoken _ hm)).2.2.2.2.2.1 rfl⟩
    rcases hf : p.filter with _ | f
    · rcases hs : p.selected_id with _ | i
      · -- ord only
        have hitems : buildItems p
            = [(lc "ord", V)].map (fun it => it.1 ++ '=' :: it.2) := by
          rw [buildItems, hsf, hf, hs, hV]; rfl
        have hbq : buildQuery p = '?' :: joinSep '&' (buildItems p) := by
          rw [buildQuery, if_neg (by rw [hitems]; simp)]
        have hpairs : parse_qsl (buildQuery p).tail = [(lc "ord", V)] := by
          rw [hbq, List.tail_cons, hitems, parse_qsl_built (by simp) (by
            intro it hit
            simp only [List.mem_singleton] at hit
            subst hit
            exact hordfacts)]
          show [(unquotePlus (lc "ord"), unquotePlus V)] = _
          rw [unquotePlus_token hVtoken]
          rfl
        refine ⟨mem_buildQuery_facts hbq ?_, Or.inr ⟨_, hbq⟩, ?_, ?_, ?_⟩
        · intro t ht
          rw [hitems] at ht
          rcases List.mem_map.mp ht with ⟨it, hit, rfl⟩
          simp only [List.mem_singleton] at hit
          subst hit
          exact hVitem
        · rw [ordStage_some (by rw [hpairs]; rfl)]
          exact hVsplit
        · exact idStage_none _ (by rw [hpairs]; rfl)
        · rw [hpairs]; rfl
      · -- ord and id
        have hitems : buildItems p
            = [(lc "ord", V), (lc "id", intToStr i)].map (fun it => it.1 ++ '=' :: it.2) := by
          rw [buildItems, hsf, hf, hs, hV]; rfl
        have hbq : buildQuery p = '?' :: joinSep '&' (buildItems p) := by
          rw [buildQuery, if_neg (by rw [hitems]; simp)]
        have hpairs : parse_qsl (buildQuery p).tail
            = [(lc "ord", V), (lc "id", intToStr i)] := by
          rw [hbq, List.tail_cons, hitems, parse_qsl_built (by simp) (by
            intro it hit
            simp only [List.mem_cons, List.not_mem_nil, or_false] at hit
            rcases hit with rfl | rfl
            · exact hordfacts
            · exact hidfacts i)]
          show [(unquotePlus (lc "ord"), unquotePlus V),
            (unquotePlus (lc "id"), unquotePlus (intToStr i))] = _
          rw [unquotePlus_token hVtoken, unquotePlus_token intToStr_tokenChar]
          rfl
        refine ⟨mem_buildQuery_facts hbq ?_, Or.inr ⟨_, hbq⟩, ?_, ?_, ?_⟩
        · intro t ht
          rw [hitems] at ht
          rcases List.mem_map.mp ht with ⟨it, hit, rfl⟩
          simp only [List.mem_cons, List.not_mem_nil, or_false] at hit
          rcases hit with rfl | rfl
          · exact hVitem
          · exact item_chars_id
        · rw [ordStage_some (by rw [hpairs]; rfl)]
          exact hVsplit
        · exact idStage_some_ok (by rw [hpairs]; rfl) (pyInt_intToStr i)
        · rw [hpairs]; rfl
    · obtain ⟨hfne, hfsafe⟩ := hfil f hf
      have h128 : ∀ c ∈ f, c.toNat < 128 := fun c hc => (safeFilterChar_facts (hfsafe c hc)).1
      have hfnp : '%' ∉ f := fun hm => (safeFilterChar_facts (hfsafe _ hm)).2 rfl
      have hredfacts : '=' ∉ lc "red" ∧ quoteStr f ≠ [] ∧ '&' ∉ lc "red" ∧ '&' ∉ quoteStr f :=
        ⟨by decide, quoteStr_ne_nil hfne, by decide,
         fun hm => (qsafe_facts (quoteStr_qsafe h128 _ hm)).2.2.2.2.2.1 rfl⟩
      rcases hs : p.selected_id with _ | i
      · -- ord and red
        have hitems : buildItems p
            = [(lc "ord", V), (lc "red", quoteStr f)].map (fun it => it.1 ++ '=' :: it.2) := by
          rw [buildItems, hsf, hf, hs, hV]; rfl
        have hbq : buildQuery p = '?' :: joinSep '&' (buildItems p) := by
          rw [buildQuery, if_neg (by rw [hitems]; simp)]
        have hpairs : parse_qsl (buildQuery p).tail
            = [(lc "ord", V), (lc "red", f)] := by
          rw [hbq, List.tail_cons, hitems, parse_qsl_built (by simp) (by
            intro it hit
            simp only [List.mem_cons, List.not_mem_nil, or_false] at hit
            rcases hit with rfl | rfl
            · exact hordfacts
            · exact hredfacts)]
          show [(unquotePlus (lc "ord"), unquotePlus V),
            (unquotePlus (lc "red"), unquotePlus (quoteStr f))] = _
          rw [unquotePlus_token hVtoken, unquotePlus_quoteStr h128]
          rfl
        refine ⟨mem_buildQuery_facts hbq ?_, Or.inr ⟨_, hbq⟩, ?_, ?_, ?_⟩
        · intro t ht
          rw [hitems] at ht
          rcases List.mem_map.mp ht with ⟨it, hit, rfl⟩
          simp only [List.mem_cons, List.not_mem_nil, or_false] at hit
          rcases hit with rfl | rfl
          · exact hVitem
          · exact item_chars_red h128
        · rw [ordStage_some (by rw [hpairs]; rfl)]
          exact hVsplit
        · exact idStage_none _ (by rw [hpairs]; rfl)
        · rw [hpairs]
          show some (unquote f) = some f
          rw [unquote_of_no_percent hfnp]
      · -- ord, red and id
        have hitems : buildItems p
            = [(lc "ord", V), (lc "red", quoteStr f), (lc "id", intToStr i)].map
                (fun it => it.1 ++ '=' :: it.2) := by
          rw [buildItems, hsf, hf, hs, hV]; rfl
        have hbq : buildQuery p = '?' :: joinSep '&' (buildItems p) := by
          rw [buildQuery, if_neg (by rw [hitems]; simp)]
        have hpairs : parse_qsl (buildQuery p).tail
            = [(lc "ord", V), (lc "red", f), (lc "id", intToStr i)] := by
          rw [hbq, List.tail_cons, hitems, parse_qsl_built (by simp) (by
            intro it hit
            simp only [List.mem_cons, List.not_mem_nil, or_false] at hit
            rcases hit with rfl | rfl | rfl
            · exact hordfacts
            · exact hredfacts
            · exact hidfacts i)]
          show [(unquotePlus (lc "ord"), unquotePlus V),
            (unquotePlus (lc "red"), unquotePlus (quoteStr f)),
            (unquotePlus (lc "id"), unquotePlus (intToStr i))] = _
          rw [unquotePlus_token hVtoken, unquotePlus_quoteStr h128,
            unquotePlus_token intToStr_tokenChar]
          rfl
        refine ⟨mem_buildQuery_facts hbq ?_, Or.inr ⟨_, hbq⟩, ?_, ?_, ?_⟩
        · intro t ht
          rw [hitems] at ht
          rcases List.mem_map.mp ht with ⟨it, hit, rfl⟩
          simp only [List.mem_cons, List.not_mem_nil, or_false] at hit
          rcases hit with rfl | rfl | rfl
          · exact hVitem
          · exact item_chars_red h128
          · exact item_chars_id
        · rw [ordStage_some (by rw [hpairs]; rfl)]
          exact hVsplit
        · exact idStage_some_ok (by rw [hpairs]; rfl) (pyInt_intToStr i)
        · rw [hpairs]
          show some (unquote f) = some f
          rw [unquote_of_no_percent hfnp]

/-! ## The round trip, by path shape -/

theorem roundtrip_1seg (p : ParsedURL) (c₀ : List Char)
    (hcard : p.card = some c₀) (hpid : p.parent_id = none) (hchild : p.child_card = none)
    (hdom : ∀ c ∈ p.domain, safeNameChar c = true)
    (hc0ne : c₀ ≠ []) (hc0 : ∀ c ∈ c₀, safeNameChar c = true)
    (hfil : ∀ f, p.filter = some f → f ≠ [] ∧ ∀ c ∈ f, safeFilterChar c = true) :
    parse_tsqlapp_url (buildURL p) = .ok p := by
  have hpb : pathBody p = c₀ := by
    rw [pathBody, hcard, hpid, hchild]
    simp
  obtain ⟨hqmem, hqshape, hqord, hqid, hqred⟩ := built_query_stages p hfil
  have hpbf : ∀ c ∈ pathBody p, urlOkChar c = true ∧ c ≠ '?' ∧ c ≠ '#' := by
    rw [hpb]
    intro c hc
    have h := safeName_facts (hc0 c hc)
    exact ⟨h.1, h.2.2.2.1, h.2.2.2.2.1⟩
  have hsemi : ';' ∉ pathBody p := by
    rw [hpb]
    intro hm
    exact (safeName_facts (hc0 _ hm)).2.2.2.2.2.1 rfl
  have hsplit : urlparsePy (buildURL p)
      = ⟨lc "https", p.domain, '/' :: pathBody p, (buildQuery p).tail, []⟩ := by
    rw [show buildURL p
        = lc "https://" ++ p.domain ++ '/' :: (pathBody p ++ buildQuery p) from by
      rw [buildURL, List.append_assoc, List.cons_append, List.append_assoc]]
    exact urlparsePy_build hdom hpbf hqmem hqshape hsemi
  have hparts : pathParts (buildURL p) = [c₀] := by
    rw [pathParts, hsplit]
    show (splitOnChar '/' ('/' :: pathBody p)).filter (fun s => !s.isEmpty) = [c₀]
    rw [hpb, show splitOnChar '/' ('/' :: c₀) = [] :: splitOnChar '/' c₀ from by
      simp [splitOnChar]]
    rw [splitOnChar_of_not_mem (fun hm => (safeName_facts (hc0 _ hm)).2.2.1 rfl)]
    simp [hc0ne]
  have hqp : queryPairs (buildURL p) = parse_qsl (buildQuery p).tail := by
    rw [queryPairs, hsplit]
  rw [parse_url_eq, hparts, hqp, hsplit,
    decodeCore_ok (pathStage_other [c₀] (by simp)) hqord hqid]
  show Except.ok (⟨p.domain, some c₀, none, none, p.sort_fields,
    (lookupQ (parse_qsl (buildQuery p).tail) (lc "red")).map unquote,
    p.selected_id⟩ : ParsedURL) = .ok p
  rw [hqred, ← hcard, ← hpid, ← hchild]

theorem roundtrip_3seg (p : ParsedURL) (c₀ : List Char) (j : Int) (ch : List Char)
    (hcard : p.card = some c₀) (hpid : p.parent_id = some j) (hchild : p.child_card = some ch)
    (hdom : ∀ c ∈ p.domain, safeNameChar c = true)
    (hc0ne : c₀ ≠ []) (hc0 : ∀ c ∈ c₀, safeNameChar c = true)
    (hchne : ch ≠ []) (hch : ∀ c ∈ ch, safeNameChar c = true)
    (hfil : ∀ f, p.filter = some f → f ≠ [] ∧ ∀ c ∈ f, safeFilterChar c = true) :
    parse_tsqlapp_url (buildURL p) = .ok p := by
  have hpb : pathBody p = c₀ ++ '/' :: (intToStr j ++ '/' :: ch) := by
    rw [pathBody, hcard, hpid, hchild]
    rfl
  obtain ⟨hqmem, hqshape, hqord, hqid, hqred⟩ := built_query_stages p hfil
  have hpbf : ∀ c ∈ pathBody p, urlOkChar c = true ∧ c ≠ '?' ∧ c ≠ '#' := by
    rw [hpb]
    intro c hc
    rcases List.mem_append.mp hc with h1 | h2
    · have h := safeName_facts (hc0 c h1)
      exact ⟨h.1, h.2.2.2.1, h.2.2.2.2.1⟩
    · rcases List.mem_cons.mp h2 with rfl | h3
      · exact ⟨by decide, by decide, by decide⟩
      · rcases List.mem_append.mp h3 with h4 | h5
        · have h := token_facts (intToStr_tokenChar c h4)
          exact ⟨h.1, h.2.2.1, h.2.2.2.1⟩
        · rcases List.mem_cons.mp h5 with rfl | h6
          · exact ⟨by decide, by decide, by decide⟩
          · have h := safeName_facts (hch c h6)
            exact ⟨h.1, h.2.2.2.1, h.2.2.2.2.1⟩
  have hsemi : ';' ∉ pathBody p := by
    rw [hpb]
    intro hm
    rcases List.mem_append.mp hm with h1 | h2
    · exact (safeName_facts (hc0 _ h1)).2.2.2.2.2.1 rfl
    · rcases List.mem_cons.mp h2 with he | h3
      · exact absurd he (by decide)
      · rcases List.mem_append.mp h3 with h4 | h5
        · exact (token_facts (intToStr_tokenChar _ h4)).2.2.2.2.1 rfl
        · rcases List.mem_cons.mp h5 with he | h6
          · exact absurd he (by decide)
          · exact (safeName_facts (hch _ h6)).2.2.2.2.2.1 rfl
  have hsplit : urlparsePy (buildURL p)
      = ⟨lc "https", p.domain, '/' :: pathBody p, (buildQuery p).tail, []⟩ := by
    rw [show buildURL p
        = lc "https://" ++ p.domain ++ '/' :: (pathBody p ++ buildQuery p) from by
      rw [buildURL, List.append_assoc, List.cons_append, List.append_assoc]]
    exact urlparsePy_build hdom hpbf hqmem hqshape hsemi
  have hparts : pathParts (buildURL p) = [c₀, intToStr j, ch] := by
    rw [pathParts, hsplit]
    show (splitOnChar '/' ('/' :: pathBody p)).filter (fun s => !s.isEmpty)
      = [c₀, intToStr j, ch]
    rw [hpb, show splitOnChar '/' ('/' :: (c₀ ++ '/' :: (intToStr j ++ '/' :: ch)))
        = [] :: splitOnChar '/' (c₀ ++ '/' :: (intToStr j ++ '/' :: ch)) from by
      simp [splitOnChar]]
    rw [splitOnChar_append (fun hm => (safeName_facts (hc0 _ hm)).2.2.1 rfl),
      splitOnChar_append (fun hm => (token_facts (intToStr_tokenChar _ hm)).2.1 rfl),
      splitOnChar_of_not_mem (fun hm => (safeName_facts (hch _ hm)).2.2.1 rfl)]
    simp [hc0ne, hchne, intToStr_ne_nil j]
  have hqp : queryPairs (buildURL p) = parse_qsl (buildQuery p).tail := by
    rw [queryPairs, hsplit]
  rw [parse_url_eq, hparts, hqp, hsplit,
    decodeCore_ok (pathStage_three (pyInt_intToStr j)) hqord hqid]
  show Except.ok (⟨p.domain, some c₀, some j, some ch, p.sort_fields,
    (lookupQ (parse_qsl (buildQuery p).tail) (lc "red")).map unquote,
    p.selected_id⟩ : ParsedURL) = .ok p
  rw [hqred, ← hcard, ← hpid, ← hchild]

/-! ## Claim C1 -/

/-- C1 (as amended): building a URL by the input grammar from any
`ParsedURL` whose `card` (and `childCard`, when the `parentId`/`childCard`
pair is present) is a non-empty URL-safe name, whose `domain` is URL-safe,
and whose `filter`, when present, is non-empty, ASCII and `%`-free, and
decoding it, returns exactly the original `ParsedURL` — sort order and
direction suffixes preserved, with arbitrary integer ids and arbitrarily
many sort fields.  (The filter restriction is forced: the decoder
percent-decodes the `red` value twice, so a `%` in the filter name does not
survive; the name restrictions are forced by the URL syntax itself.) -/
theorem C1_roundtrip_safe (p : ParsedURL) (hsafe : safeParsedURL p = true) :
    parse_tsqlapp_url (buildURL p) = .ok p := by
  obtain ⟨dom, card, pid, child, sfs, filt, sel⟩ := p
  rw [safeParsedURL] at hsafe
  simp only [Bool.and_eq_true] at hsafe
  obtain ⟨⟨⟨hdomB, hcardB⟩, hpcB⟩, hfilB⟩ := hsafe
  have hdom : ∀ c ∈ dom, safeNameChar c = true := List.all_eq_true.mp hdomB
  rcases card with _ | c₀
  · simp at hcardB
  have hcardB' : (!c₀.isEmpty && c₀.all safeNameChar) = true := hcardB
  rw [Bool.and_eq_true] at hcardB'
  have hc0ne : c₀ ≠ [] := by simpa using hcardB'.1
  have hc0 : ∀ c ∈ c₀, safeNameChar c = true := List.all_eq_true.mp hcardB'.2
  have hfil : ∀ f, filt = some f → f ≠ [] ∧ ∀ c ∈ f, safeFilterChar c = true := by
    intro f hf
    rw [hf] at hfilB
    have hfilB' : (!f.isEmpty && f.all safeFilterChar) = true := hfilB
    rw [Bool.and_eq_true] at hfilB'
    exact ⟨by simpa using hfilB'.1, List.all_eq_true.mp hfilB'.2⟩
  rcases pid with _ | j <;> rcases child with _ | ch
  · exact roundtrip_1seg _ c₀ rfl rfl rfl hdom hc0ne hc0 hfil
  · simp at hpcB
  · simp at hpcB
  · have hpcB' : (!ch.isEmpty && ch.all safeNameChar) = true := hpcB
    rw [Bool.and_eq_true] at hpcB'
    exact roundtrip_3seg _ c₀ j ch rfl rfl rfl hdom hc0ne hc0
      (by simpa using hpcB'.1) (List.all_eq_true.mp hpcB'.2) hfil

theorem C1_witness :
    safeParsedURL ⟨lc "host", some (lc "c"), some 7, some (lc "kid"),
        [⟨10, Direction.DESC⟩], some (lc "Draft"), some 5⟩ = true
    ∧ parse_tsqlapp_url (buildURL ⟨lc "host", some (lc "c"), some 7, some (lc "kid"),
        [⟨10, Direction.DESC⟩], some (lc "Draft"), some 5⟩)
      = .ok ⟨lc "host", some (lc "c"), some 7, some (lc "kid"),
        [⟨10, Direction.DESC⟩], some (lc "Draft"), some 5⟩ :=
  ⟨by decide,
   C1_roundtrip_safe ⟨lc "host", some (lc "c"), some 7, some (lc "kid"),
     [⟨10, Direction.DESC⟩], some (lc "Draft"), some 5⟩ (by decide)⟩

/-- C1 counterexample: the round trip fails for the filter name `%41` — the
built URL carries `red=%2541`, `parse_qs` decodes it once to `%41`, and the
decoder's extra `unquote` decodes it again to `A`, so the decoded
`ParsedURL` differs from the original. -/
theorem C1_counterexample :
    parse_tsqlapp_url
        (buildURL ⟨lc "host", some (lc "c"), none, none, [], some (lc "%41"), none⟩)
      = .ok ⟨lc "host", some (lc "c"), none, none, [], some (lc "A"), none⟩
    ∧ some (lc "A") ≠ some (lc "%41") :=
  ⟨rfl, by decide⟩
